import Mathlib

/-!
Formal model of `packages/basemap/utils/GeosLibrary.py`.

The Python module defines a single class `GeosLibrary` that downloads a GEOS
source archive, extracts and patches it, and drives a CMake build.  This file
gives a shallow embedding of the parts of that class that the verified
properties talk about:

* version-string parsing in `GeosLibrary.__init__`
  (`tuple(map(int, version.split(".")))`) and the derived `version` property;
* the `extract` method: download-on-demand, the overwrite check, unzipping,
  the `CMakeLists.txt` text patch and the conditional `geos_svn_revision.h`
  synthesis;
* the `build` method: configure/build argument assembly, the `MAKEFLAGS`
  environment variable, the working-directory save/restore discipline, and the
  fact that subprocess exit codes are ignored;
* the constructor's treatment of `os.makedirs` failures.

The filesystem is modelled as an association list of file paths to contents
plus a list of existing directories; paths are `List Char`.  External effects
(the network download, `os.makedirs`, the two `subprocess.call` invocations)
are modelled by oracle parameters describing their outcome.  Aspects no
verified property depends on are left out of the model: permission bits (the
`chmod` loop over `tools/*.sh`), the byte content of the zip file itself (the
archive's entry list is passed explicitly), timestamps, and `os.path.abspath`
resolution.
-/

set_option linter.unusedVariables false

/-- Characters of a string literal; all path and text reasoning happens on
`List Char`. -/
def cs (s : String) : List Char := s.data

/-! ### Python exceptions

`OSError` and its subclasses are one family: an `except OSError` clause
catches every `OSKind`.  `valueError` models `ValueError` from `int()`. -/

/-- Kinds of `OSError`: the bare class and the subclasses relevant here. -/
inductive OSKind where
  | generic
  | fileNotFound
  | fileExists
  | permission
  deriving DecidableEq, Repr

/-- Python exception classes appearing in the modelled code paths. -/
inductive PyExcClass where
  | osError (k : OSKind)
  | valueError
  deriving DecidableEq, Repr

/-- A raised exception: class plus message. -/
def PyExc : Type := PyExcClass × List Char

instance : DecidableEq PyExc := by unfold PyExc; infer_instance

instance : Repr PyExc := by unfold PyExc; infer_instance

/-- Whether an `except OSError` clause catches this class (it catches the
whole `OSError` family, subclasses included). -/
def catchesOSError : PyExcClass → Bool
  | .osError _ => true
  | .valueError => false

/-- The plain `OSError` class itself: the class of a generic I/O failure
(what `os.makedirs`, `shutil.rmtree` or a failed file operation raise and
what the source's own `except OSError` guards treat as ordinary I/O
trouble). -/
def plainOSError : PyExcClass := .osError .generic

/-- Whether an exception class can be told apart from a generic I/O failure
by its class alone (a dedicated subclass or a non-I/O class can; the plain
`OSError` class cannot). -/
def distinguishableFromGenericIO (c : PyExcClass) : Bool :=
  decide (c ≠ plainOSError)

/-! ### Version-string parsing: `tuple(map(int, version.split(".")))` -/

/-- Whitespace stripped by Python's `int()` (ASCII part). -/
def isPyWS (c : Char) : Bool :=
  c = ' ' || c = '\t' || c = '\n' || c = '\r' || c = '\x0b' || c = '\x0c'

/-- Strip leading and trailing whitespace, as `int()` does before parsing. -/
def pyStrip (s : List Char) : List Char :=
  ((s.dropWhile isPyWS).reverse.dropWhile isPyWS).reverse

/-- Numeric value of a decimal digit character. -/
def digitVal (c : Char) : Nat := c.toNat - 48

/-- Digit run with single underscores allowed between digits, as accepted by
`int()` on Python ≥ 3.6; the caller guarantees the first character is a
digit. -/
def parseUD (acc : Nat) : List Char → Option Nat
  | [] => some acc
  | c :: rest =>
    if c = '_' then
      match rest with
      | d :: rest' => if d.isDigit then parseUD (acc * 10 + digitVal d) rest' else none
      | [] => none
    else if c.isDigit then parseUD (acc * 10 + digitVal c) rest else none

/-- Digit part of an `int()` literal: nonempty and starting with a digit. -/
def pyIntBody (s : List Char) : Option Nat :=
  match s with
  | [] => none
  | c :: _ => if c.isDigit then parseUD 0 s else none

/-- Model of Python's `int(s)` on ASCII input: optional surrounding
whitespace, optional sign, then digits (underscore separators allowed).
`none` models the `ValueError` raise. -/
def pyInt (s : List Char) : Option Int :=
  match pyStrip s with
  | [] => none
  | c :: rest =>
    if c = '+' then (pyIntBody rest).map Int.ofNat
    else if c = '-' then (pyIntBody rest).map (fun n => -(Int.ofNat n))
    else (pyIntBody (c :: rest)).map Int.ofNat

/-- Model of `version.split(".")`: like Python `str.split`, always returns at
least one (possibly empty) component. -/
def splitDot : List Char → List (List Char)
  | [] => [[]]
  | c :: rest =>
    if c = '.' then [] :: splitDot rest
    else
      match splitDot rest with
      | g :: gs => (c :: g) :: gs
      | [] => [[c]]

/-- Model of `".".join(...)` on already-stringified components. -/
def joinDot : List (List Char) → List Char
  | [] => []
  | [g] => g
  | g :: gs => g ++ '.' :: joinDot gs

/-- Parse every component with `int()`; any failure is the constructor's
`ValueError`. -/
def intList : List (List Char) → Option (List Int)
  | [] => some []
  | c :: cstail =>
    match pyInt c, intList cstail with
    | some v, some vs => some (v :: vs)
    | _, _ => none

/-- Base-10 digits, least significant first, by structural recursion on a
fuel argument so that closed instances evaluate by kernel reduction. -/
def natDigitsAux : Nat → Nat → List Nat
  | 0, _ => []
  | fuel + 1, s => if s = 0 then [] else (s % 10) :: natDigitsAux fuel (s / 10)

/-- Base-10 digits of a natural number, least significant first. -/
def natDigits (n : Nat) : List Nat := natDigitsAux n n

/-- Decimal digits of a natural number, most significant first, matching
Python's `str` on a non-negative `int`. -/
def natToChars (n : Nat) : List Char :=
  if n = 0 then ['0'] else ((natDigits n).map (fun d => Char.ofNat (48 + d))).reverse

/-- Model of Python's `str` on an `int`. -/
def intToChars (i : Int) : List Char :=
  if i < 0 then '-' :: natToChars i.natAbs else natToChars i.toNat

/-- Whether an integer is non-negative. -/
def isNonneg : Int → Bool
  | .ofNat _ => true
  | .negSucc _ => false

/-- A canonical decimal numeral: nonempty, all digits, no leading zero
unless the numeral is exactly `"0"`. -/
def canonicalComp (l : List Char) : Bool :=
  match l with
  | [] => false
  | c :: rest => c.isDigit && rest.all Char.isDigit && (decide (c ≠ '0') || rest.isEmpty)

/-- Value of a big-endian decimal digit string. -/
def digitsVal (ds : List Char) : Nat :=
  ds.foldl (fun a d => a * 10 + digitVal d) 0

/-- Python tuple `<` on integer tuples: lexicographic, a proper prefix is
smaller. -/
def tupleLt : List Int → List Int → Bool
  | [], [] => false
  | [], _ :: _ => true
  | _ :: _, [] => false
  | a :: as', b :: bs' => if a < b then true else if b < a then false else tupleLt as' bs'

/-! ### The `GeosLibrary` instance -/

/-- The state of a `GeosLibrary` object: the fields set in `__init__` that
the modelled methods read. -/
structure GeosLibrary where
  root : List Char
  version_tuple : List Int
  temp : Bool
  deriving DecidableEq, Repr

/-- The `version` property: `".".join(map(str, self.version_tuple))`. -/
def GeosLibrary.version (g : GeosLibrary) : List Char :=
  joinDot (g.version_tuple.map intToChars)

/-- End-to-end composition checked by the round-trip property: parse a dotted
version string, then re-join the stringified components. -/
def versionOfString (s : List Char) : Option (List Char) :=
  (intList (splitDot s)).map (fun vt => joinDot (vt.map intToChars))

/-! ### Filesystem model -/

/-- A filesystem: file paths with contents, plus existing directories.  The
file list is ordered with the most recent write first; lookups take the first
hit, so writes shadow older entries. -/
structure FS where
  files : List (List Char × List Char)
  dirs : List (List Char)
  deriving DecidableEq, Repr

/-- First-match association-list lookup (used both for files and for
environment dictionaries). -/
def lookupFile : List (List Char × List Char) → List Char → Option (List Char)
  | [], _ => none
  | (k, v) :: rest, p => if k = p then some v else lookupFile rest p

/-- Write (or overwrite) a file. -/
def writeFile (fs : FS) (p c : List Char) : FS :=
  { fs with files := (p, c) :: fs.files }

/-- Whether `q` lies in the subtree rooted at directory `d` (`q = d` or `q`
is below `d`). -/
def isUnderEq (d q : List Char) : Bool :=
  q = d || (d ++ ['/']).isPrefixOf q

/-- Model of `os.path.exists`: a file or a directory at that path. -/
def pathExists (fs : FS) (p : List Char) : Bool :=
  (lookupFile fs.files p).isSome || fs.dirs.any (fun d => d = p)

/-- Model of `shutil.rmtree`: remove the directory and everything under it. -/
def rmtree (fs : FS) (d : List Char) : FS :=
  { files := fs.files.filter (fun e => !isUnderEq d e.1),
    dirs := fs.dirs.filter (fun q => !isUnderEq d q) }

/-- Nothing (file or directory) exists in the subtree rooted at `d`. -/
def subtreeClear (fs : FS) (d : List Char) : Bool :=
  fs.files.all (fun e => !isUnderEq d e.1) && fs.dirs.all (fun q => !isUnderEq d q)

/-- The file entries of `fs` lying inside the subtree rooted at `d`. -/
def subtreeFiles (fs : FS) (d : List Char) : List (List Char × List Char) :=
  fs.files.filter (fun e => isUnderEq d e.1)

/-- The directory entries of `fs` lying inside the subtree rooted at `d`. -/
def subtreeDirs (fs : FS) (d : List Char) : List (List Char) :=
  fs.dirs.filter (fun q => isUnderEq d q)

/-! ### Deterministic paths used by `extract` and `build` -/

/-- `os.path.join` for the relative components used in the source (no
absolute second argument appears there). -/
def osJoin (a b : List Char) : List Char := a ++ '/' :: b

/-- Archive-internal name of the extracted top-level folder,
`"geos-{version}"`. -/
def foldname (g : GeosLibrary) : List Char := cs "geos-" ++ g.version

/-- `zippath`: `os.path.join(self.root, "geos-{version}.zip")`. -/
def zippath (g : GeosLibrary) : List Char := osJoin g.root (foldname g ++ cs ".zip")

/-- `zipfold`: `os.path.join(self.root, "geos-{version}")`. -/
def zipfold (g : GeosLibrary) : List Char := osJoin g.root (foldname g)

/-- Archive-relative path of `capi/CMakeLists.txt`. -/
def cmakeRel (g : GeosLibrary) : List Char := foldname g ++ cs "/capi/CMakeLists.txt"

/-- `cmakefile`: `os.path.join(zipfold, "capi", "CMakeLists.txt")`. -/
def cmakefile (g : GeosLibrary) : List Char := osJoin (zipfold g) (cs "capi/CMakeLists.txt")

/-- Archive-relative path of the revision header. -/
def svnRel (g : GeosLibrary) : List Char := foldname g ++ cs "/geos_svn_revision.h"

/-- `svn_hfile`: `os.path.join(zipfold, "geos_svn_revision.h")`. -/
def svn_hfile (g : GeosLibrary) : List Char := osJoin (zipfold g) (cs "geos_svn_revision.h")

/-- Content written into a synthesized `geos_svn_revision.h`. -/
def svnContent : List Char := cs "#define GEOS_SVN_REVISION 0"

/-! ### The `CMakeLists.txt` line patch -/

/-- The shared-library link directive replaced by `extract`. -/
def oldtext : List Char := cs "target_link_libraries(geos_c geos)"

/-- The static-library link directive substituted in. -/
def newtext : List Char := cs "target_link_libraries(geos_c geos-static)"

/-- Worker for `pyReplace`, structurally recursive on a fuel bound of the
input length. -/
def pyReplaceAux (o n : List Char) : Nat → List Char → List Char
  | 0, s => s
  | _ + 1, [] => []
  | fuel + 1, c :: rest =>
    if o.isPrefixOf (c :: rest) then n ++ pyReplaceAux o n fuel (rest.drop (o.length - 1))
    else c :: pyReplaceAux o n fuel rest

/-- Model of Python `str.replace` for a nonempty pattern: scan left to right,
replacing each non-overlapping occurrence of `o` by `n`. -/
def pyReplace (s o n : List Char) : List Char :=
  pyReplaceAux o n s.length s

/-- Worker for `univNL`, structurally recursive on a fuel bound. -/
def univNLAux : Nat → List Char → List Char
  | 0, s => s
  | _ + 1, [] => []
  | fuel + 1, c :: rest =>
    if c = '\r' then
      match rest with
      | '\n' :: rest2 => '\n' :: univNLAux fuel rest2
      | _ => '\n' :: univNLAux fuel rest
    else c :: univNLAux fuel rest

/-- Universal-newline translation performed by reading the file in text
mode: `"\r\n"` and `"\r"` both become `"\n"`. -/
def univNL (s : List Char) : List Char := univNLAux s.length s

/-- Split decoded text into lines keeping the `'\n'` terminators, as
`readlines` does. -/
def splitLines : List Char → List (List Char)
  | [] => []
  | c :: rest =>
    if c = '\n' then ['\n'] :: splitLines rest
    else
      match splitLines rest with
      | [] => [[c]]
      | l :: ls => (c :: l) :: ls

/-- Model of `fd.readlines()` on the opened text file. -/
def pyReadlines (content : List Char) : List (List Char) :=
  splitLines (univNL content)

/-- The patched lines written back by `extract`. -/
def patchedLines (content : List Char) : List (List Char) :=
  (pyReadlines content).map (fun l => pyReplace l oldtext newtext)

/-- Full content of the rewritten `CMakeLists.txt`. -/
def patchContent (content : List Char) : List Char :=
  (patchedLines content).flatten

/-! ### The `extract` method

`extract` is a chain of stages, each mirroring a block of the Python method.
Errors carry the filesystem state at raise time, since Python exceptions
leave already-performed side effects in place. -/

/-- Outcome of `extract`-style computations: success or a raised exception
together with the filesystem at that moment. -/
def XResult : Type := Except (PyExc × FS) FS

/-- Filesystem after the download-on-demand block: `download` writes the zip
file at its deterministic path (its byte content is not modelled). -/
def ensureZipFS (g : GeosLibrary) (fs : FS) : FS :=
  if pathExists fs (zippath g) then fs else writeFile fs (zippath g) []

/-- Download-on-demand stage; `dlo` is the network outcome used when the zip
file is absent (a transport failure propagates). -/
def ensureZip (g : GeosLibrary) (dlo : Except PyExc Unit) (fs : FS) : XResult :=
  if pathExists fs (zippath g) then .ok fs
  else
    match dlo with
    | .ok _ => .ok (writeFile fs (zippath g) [])
    | .error e => .error (e, fs)

/-- Message of the overwrite-declined `OSError`. -/
def destExistsMsg (g : GeosLibrary) : List Char :=
  cs "folder '" ++ zipfold g ++ cs "' already exists"

/-- Filesystem after the destination-clearing branch when overwrite is
allowed. -/
def clearFS (g : GeosLibrary) (fs : FS) : FS :=
  if pathExists fs (zipfold g) then rmtree fs (zipfold g) else fs

/-- Destination check: raise a plain `OSError` when the folder exists and
overwrite is declined, otherwise remove it if present. -/
def clearDest (g : GeosLibrary) (overwrite : Bool) (fs : FS) : XResult :=
  if pathExists fs (zipfold g) then
    if overwrite = false then .error ((plainOSError, destExistsMsg g), fs)
    else .ok (rmtree fs (zipfold g))
  else .ok fs

/-- Model of `ZipFile.extractall(self.root)`: write every archive entry
(archive-relative path, content) under the root, in order. -/
def extractall (root : List Char) : List (List Char × List Char) → FS → FS
  | [], fs => fs
  | (p, c) :: rest, fs => extractall root rest (writeFile fs (osJoin root p) c)

/-- The `CMakeLists.txt` patch: read the file (a missing file is the
`FileNotFoundError` of `io.open`), rewrite it with the per-line
substitution. -/
def patchStep (g : GeosLibrary) (fs : FS) : XResult :=
  match lookupFile fs.files (cmakefile g) with
  | none => .error ((.osError .fileNotFound, cs "No such file or directory"), fs)
  | some content => .ok (writeFile fs (cmakefile g) (patchContent content))

/-- The revision-header stage: only below version 3.6.0 and only when the
file does not already exist. -/
def svnStep (g : GeosLibrary) (fs : FS) : FS :=
  if tupleLt g.version_tuple [3, 6, 0] && !pathExists fs (svn_hfile g) then
    writeFile fs (svn_hfile g) svnContent
  else fs

/-- Model of `GeosLibrary.extract`: download on demand, destination check,
unzip, patch, synthesize the revision header.  `arc` is the archive's entry
list; the `chmod` loop over `tools/*.sh` only touches permission bits, which
the model does not track. -/
def extract (g : GeosLibrary) (arc : List (List Char × List Char))
    (dlo : Except PyExc Unit) (overwrite : Bool) (fs : FS) : XResult :=
  match ensureZip g dlo fs with
  | .error e => .error e
  | .ok fs1 =>
    match clearDest g overwrite fs1 with
    | .error e => .error e
    | .ok fs2 =>
      let fs3 := extractall g.root arc fs2
      match patchStep g fs3 with
      | .error e => .error e
      | .ok fs4 => .ok (svnStep g fs4)

/-! ### The `build` method -/

/-- Host facts read by `build`: `os.name`, `struct.calcsize("P")`,
`os.environ` and the home directory for `os.path.expanduser`. -/
structure BuildCfg where
  osName : List Char
  pointerBytes : Nat
  env0 : List (List Char × List Char)
  home : List Char

/-- `"YES"`/`"NO"` selection used for the NMake variable assignments. -/
def yesNo (b : Bool) : List Char := if b then cs "YES" else cs "NO"

/-- Configure options assembled at lines 172–179: install prefix, tests off,
release build type, with the NMake generator pair prepended on Windows below
3.6.0. -/
def configOpts (cfg : BuildCfg) (vt : List Int) (installdir : List Char) : List (List Char) :=
  let base := [cs "-DCMAKE_INSTALL_PREFIX=" ++ installdir,
               cs "-DGEOS_ENABLE_TESTS=OFF",
               cs "-DCMAKE_BUILD_TYPE=Release"]
  if cfg.osName = cs "nt" ∧ tupleLt vt [3, 6, 0] = true then
    cs "-G" :: cs "NMake Makefiles" :: base
  else base

/-- Build options and build environment assembled at lines 181–197: on
non-Windows, parallelism goes into `MAKEFLAGS`; on Windows below 3.6.0, NMake
variable assignments after `--`; otherwise an explicit `-j` flag. -/
def buildOptsEnv (cfg : BuildCfg) (vt : List Int) (njobs : Int) :
    List (List Char) × List (List Char × List Char) :=
  let bopts := [cs "--config", cs "Release", cs "--target", cs "install"]
  if cfg.osName ≠ cs "nt" then
    (bopts, (cs "MAKEFLAGS", cs "-j " ++ intToChars njobs) :: cfg.env0)
  else if tupleLt vt [3, 6, 0] = true then
    (bopts ++ [cs "--",
               cs "WIN64=" ++ yesNo (8 * cfg.pointerBytes = 64),
               cs "BUILD_BATCH=" ++ yesNo (1 < njobs)],
     cfg.env0)
  else
    (cs "-j" :: intToChars njobs :: bopts, cfg.env0)

/-- Process state seen by `build`: the filesystem and the current working
directory. -/
structure PState where
  fs : FS
  cwd : List Char
  deriving DecidableEq, Repr

/-- Outcome of a `subprocess.call`: a return code (never inspected by the
source) or a raised exception such as a missing executable. -/
inductive CallOutcome where
  | returns (code : Int)
  | raises (e : PyExc)
  deriving DecidableEq, Repr

/-- Outcome of an `os.makedirs` wrapped in `except OSError: pass`: either the
directory is created or an `OSError` is swallowed leaving the filesystem
unchanged. -/
inductive MkdirOutcome where
  | ok
  | failsOS (k : OSKind)
  deriving DecidableEq, Repr

/-- Apply a guarded `os.makedirs`. -/
def applyMkdir (o : MkdirOutcome) (d : List Char) (fs : FS) : FS :=
  match o with
  | .ok => { fs with dirs := d :: fs.dirs }
  | .failsOS _ => fs

/-- Oracle bundle for one `build` call: network outcome for a download
triggered inside `extract`, the two guarded `makedirs`, and the two
`subprocess.call` invocations. -/
structure BuildOracle where
  dlo : Except PyExc Unit
  mkBuild : MkdirOutcome
  mkInstall : MkdirOutcome
  call1 : CallOutcome
  call2 : CallOutcome

/-- Model of `os.chdir`: fails with the usual `OSError` subclass when the
directory does not exist. -/
def chdirE (p : List Char) (st : PState) : Except PyExc PState :=
  if p ∈ st.fs.dirs then .ok { st with cwd := p }
  else .error (.osError .fileNotFound, cs "chdir: no such directory")

/-- Outcome of `build`-style computations. -/
def BResult : Type := Except (PyExc × PState) PState

/-- The `finally: os.chdir(cwd)` clause: restore the saved directory on both
the normal and the error path; a failing restore supersedes, as a raise in a
`finally` block does. -/
def runFinally (cwd0 : List Char) (r : BResult) : BResult :=
  match r with
  | .ok st =>
    match chdirE cwd0 st with
    | .ok st' => .ok st'
    | .error e => .error (e, st)
  | .error (e, st) =>
    match chdirE cwd0 st with
    | .ok st' => .error (e, st')
    | .error e2 => .error (e2, st)

/-- The `build` subdirectory. -/
def builddir (g : GeosLibrary) : List Char := osJoin (zipfold g) (cs "build")

/-- Install directory resolution at lines 167–170 (`abspath` is not
modelled; paths are taken as given). -/
def resolveInstalldir (cfg : BuildCfg) (installdirArg : Option (List Char)) : List Char :=
  installdirArg.getD (cfg.home ++ cs "/.local/share/libgeos")

/-- Model of `GeosLibrary.build`: re-extract with overwrite, assemble the
cmake arguments, then enter the build directory, run the two external calls
and unconditionally restore the working directory. -/
def build (g : GeosLibrary) (arc : List (List Char × List Char)) (cfg : BuildCfg)
    (orc : BuildOracle) (installdirArg : Option (List Char)) (njobs : Int)
    (st : PState) : BResult :=
  match extract g arc orc.dlo true st.fs with
  | .error (e, fs') => .error (e, { st with fs := fs' })
  | .ok fs1 =>
    let st1 : PState := { fs := fs1, cwd := st.cwd }
    let installdir := resolveInstalldir cfg installdirArg
    let _copts := configOpts cfg g.version_tuple installdir
    let _bo := buildOptsEnv cfg g.version_tuple njobs
    let cwd0 := st1.cwd
    runFinally cwd0 (
      let st2 : PState := { st1 with fs := applyMkdir orc.mkBuild (builddir g) st1.fs }
      match chdirE (builddir g) st2 with
      | .error e => .error (e, st2)
      | .ok st3 =>
        match orc.call1 with
        | .raises e => .error (e, st3)
        | .returns _ =>
          let st4 : PState := { st3 with fs := applyMkdir orc.mkInstall installdir st3.fs }
          match orc.call2 with
          | .raises e => .error (e, st4)
          | .returns _ => .ok st4)

/-- Working directory recorded in a `build` outcome, success or failure. -/
def resultCwd (r : BResult) : List Char :=
  match r with
  | .ok st => st.cwd
  | .error (_, st) => st.cwd

/-- Filesystem recorded in a `build` outcome, success or failure. -/
def resultFS (r : BResult) : FS :=
  match r with
  | .ok st => st.fs
  | .error (_, st) => st.fs

/-- Whether an `extract` outcome is a normal return. -/
def xIsOk (r : XResult) : Bool :=
  match r with
  | .ok _ => true
  | .error _ => false

/-- Whether a `build` outcome is a normal return. -/
def bIsOk (r : BResult) : Bool :=
  match r with
  | .ok _ => true
  | .error _ => false

/-- The saved working directory still exists after the `extract` stage (it
always does for a live process unless the extraction removed it); this is
the hypothesis under which the `finally` restore succeeds. -/
def cwdSafe (g : GeosLibrary) (arc : List (List Char × List Char))
    (dlo : Except PyExc Unit) (st : PState) : Bool :=
  match extract g arc dlo true st.fs with
  | .ok fs1 => fs1.dirs.any (fun d => d = st.cwd)
  | .error _ => true

/-! ### The constructor -/

/-- Outcome of the unguarded `os.makedirs(self.root)` in `__init__`; the
oracle may produce any exception class, so that the specificity of the
`except OSError` clause is visible in the model. -/
inductive MkdirOutcomeG where
  | ok
  | fails (e : PyExc)
  deriving DecidableEq, Repr

/-- Model of `GeosLibrary.__init__`: parse the version (a bad component is
`int()`'s `ValueError`), then either allocate a temporary root or create the
caller-supplied root with every `OSError` suppressed. -/
def pyInit (versionStr : List Char) (rootArg : Option (List Char))
    (tmpName : List Char) (mk : MkdirOutcomeG) (fs : FS) :
    Except (PyExc × FS) (GeosLibrary × FS) :=
  match intList (splitDot versionStr) with
  | none => .error ((.valueError, cs "invalid literal for int() with base 10"), fs)
  | some vt =>
    match rootArg with
    | none => .ok ({ root := tmpName, version_tuple := vt, temp := true },
                   { fs with dirs := tmpName :: fs.dirs })
    | some r =>
      match mk with
      | .ok => .ok ({ root := r, version_tuple := vt, temp := false },
                    { fs with dirs := r :: fs.dirs })
      | .fails e =>
        if catchesOSError e.1 then
          .ok ({ root := r, version_tuple := vt, temp := false }, fs)
        else .error (e, fs)

/-- Filesystem produced by a successful overwriting `extract`, the stages
composed. -/
def extractFS (g : GeosLibrary) (arc : List (List Char × List Char))
    (fs : FS) (content : List Char) : FS :=
  svnStep g (writeFile (extractall g.root arc (clearFS g (ensureZipFS g fs)))
    (cmakefile g) (patchContent content))

/-- Boolean infix test: some suffix of `s` starts with `pat`. -/
def hasInfix (s pat : List Char) : Bool :=
  s.tails.any (fun t => pat.isPrefixOf t)

/-- No nonempty suffix of `n` shorter than `o` is a prefix of `o`: rules out
an occurrence of `o` straddling the end of an inserted replacement. -/
def noSuffA (n o : List Char) : Bool :=
  n.tails.all (fun u => u.length = 0 || decide (o.length ≤ u.length) || !u.isPrefixOf o)

/-- No nonempty proper suffix of `o` is a prefix of `n`: rules out a partial
match of `o` continuing into an inserted replacement. -/
def noSuffB (o n : List Char) : Bool :=
  o.tails.all (fun w => w.length = 0 || w.length = o.length || !w.isPrefixOf n)

/-! ### Concrete example instances used by the closed witness checks -/

/-- Example instance at version 3.5.0 (below the 3.6.0 threshold). -/
def gEx35 : GeosLibrary := { root := cs "/r", version_tuple := [3, 5, 0], temp := false }

/-- Example instance at version 3.9.0 (at or above the threshold). -/
def gEx39 : GeosLibrary := { root := cs "/r", version_tuple := [3, 9, 0], temp := false }

/-- Example `CMakeLists.txt` content containing the shared-library link
directive. -/
def cmContent : List Char := cs "x\ntarget_link_libraries(geos_c geos)\ny\n"

/-- Example archive for version 3.5.0: the build descriptor only. -/
def arcEx35 : List (List Char × List Char) :=
  [(cs "geos-3.5.0/capi/CMakeLists.txt", cmContent)]

/-- Example archive for version 3.9.0. -/
def arcEx39 : List (List Char × List Char) :=
  [(cs "geos-3.9.0/capi/CMakeLists.txt", cmContent)]

/-- Example filesystem holding only the working root. -/
def fsEx : FS := { files := [], dirs := [cs "/r"] }

/-- Example filesystem where the 3.5.0 extraction destination already
exists. -/
def fsExDest35 : FS := { files := [], dirs := [cs "/r/geos-3.5.0", cs "/r"] }

/-- Example host configuration resembling a Linux machine. -/
def cfgLinux : BuildCfg :=
  { osName := cs "posix", pointerBytes := 8, env0 := [(cs "PATH", cs "/usr/bin")],
    home := cs "/home/u" }

/-- Example host configuration resembling a Windows machine. -/
def cfgWin : BuildCfg :=
  { osName := cs "nt", pointerBytes := 8, env0 := [(cs "PATH", cs "C:/bin")],
    home := cs "/home/u" }

/-- Example oracle: download succeeds, both directory creations succeed, the
configure call exits 0 and the build call exits 1 (a failing native build). -/
def orcEx : BuildOracle :=
  { dlo := .ok (), mkBuild := .ok, mkInstall := .ok,
    call1 := .returns 0, call2 := .returns 1 }

/-- Example process state rooted at the working directory `/r`. -/
def stEx : PState := { fs := fsEx, cwd := cs "/r" }

/-! ## Lemmas: filesystem primitives -/

/-- Bridge from the boolean `isPrefixOf` to the `<+:` relation (restated
here under a local name for uniform use). -/
theorem prefOf_iff {l₁ l₂ : List Char} : l₁.isPrefixOf l₂ = true ↔ l₁ <+: l₂ :=
  List.isPrefixOf_iff_prefix

theorem lookupFile_writeFile_self (fs : FS) (p c : List Char) :
    lookupFile (writeFile fs p c).files p = some c := by
  simp [writeFile, lookupFile]

theorem lookupFile_writeFile_ne (fs : FS) (p c q : List Char) (h : q ≠ p) :
    lookupFile (writeFile fs p c).files q = lookupFile fs.files q := by
  simp only [writeFile, lookupFile]
  rw [if_neg (Ne.symm h)]

theorem writeFile_dirs (fs : FS) (p c : List Char) :
    (writeFile fs p c).dirs = fs.dirs := rfl

theorem pathExists_writeFile_ne (fs : FS) (p c q : List Char) (h : q ≠ p) :
    pathExists (writeFile fs p c) q = pathExists fs q := by
  simp [pathExists, lookupFile_writeFile_ne fs p c q h, writeFile_dirs]

theorem pathExists_mono_writeFile (fs : FS) (p c q : List Char)
    (h : pathExists fs q = true) : pathExists (writeFile fs p c) q = true := by
  by_cases hq : q = p
  · subst hq; simp [pathExists, lookupFile_writeFile_self]
  · rwa [pathExists_writeFile_ne fs p c q hq]

theorem lookupFile_eq_none_of_keys (l : List (List Char × List Char)) (q : List Char)
    (h : ∀ e ∈ l, e.1 ≠ q) : lookupFile l q = none := by
  induction l with
  | nil => rfl
  | cons e rest ih =>
    obtain ⟨k, v⟩ := e
    have hk : k ≠ q := h (k, v) (List.mem_cons_self _ _)
    simp only [lookupFile, if_neg hk]
    exact ih (fun e he => h e (List.mem_cons_of_mem _ he))

theorem lookupFile_mem (l : List (List Char × List Char)) (q v : List Char)
    (h : lookupFile l q = some v) : (q, v) ∈ l := by
  induction l with
  | nil => simp [lookupFile] at h
  | cons e rest ih =>
    obtain ⟨k, w⟩ := e
    by_cases hk : k = q
    · subst hk
      simp [lookupFile] at h
      subst h; exact List.mem_cons_self _ _
    · simp only [lookupFile, if_neg hk] at h
      exact List.mem_cons_of_mem _ (ih h)

theorem rmtree_pathExists (fs : FS) (d q : List Char) (h : isUnderEq d q = true) :
    pathExists (rmtree fs d) q = false := by
  simp only [pathExists, rmtree, Bool.or_eq_false_iff]
  constructor
  · rw [lookupFile_eq_none_of_keys]
    · rfl
    · intro e he heq
      rw [List.mem_filter] at he
      rw [heq] at he
      simp [h] at he
  · rw [List.any_eq_false]
    intro x hx
    rw [List.mem_filter] at hx
    intro hxq
    rw [of_decide_eq_true hxq] at hx
    simp [h] at hx

theorem subtreeClear_pathExists (fs : FS) (d q : List Char)
    (hc : subtreeClear fs d = true) (h : isUnderEq d q = true) :
    pathExists fs q = false := by
  simp only [subtreeClear, Bool.and_eq_true, List.all_eq_true] at hc
  simp only [pathExists, Bool.or_eq_false_iff]
  constructor
  · cases hl : lookupFile fs.files q with
    | none => rfl
    | some v =>
      have hm := lookupFile_mem _ _ _ hl
      have := hc.1 _ hm
      simp [h] at this
  · rw [List.any_eq_false]
    intro x hx hxq
    have := hc.2 _ hx
    rw [of_decide_eq_true hxq] at this
    simp [h] at this

/-! ## Lemmas: the deterministic paths -/

theorem osJoin_inj (r p q : List Char) : osJoin r p = osJoin r q ↔ p = q := by
  constructor
  · intro h
    have := List.append_cancel_left h
    exact List.cons.inj this |>.2
  · intro h; rw [h]

theorem osJoin_assoc (r f x : List Char) :
    osJoin (osJoin r f) x = osJoin r (f ++ '/' :: x) := by
  simp [osJoin, List.append_assoc]

theorem svn_hfile_eq (g : GeosLibrary) : svn_hfile g = osJoin g.root (svnRel g) := by
  rw [svn_hfile, zipfold, osJoin_assoc, svnRel]
  have : (cs "/geos_svn_revision.h" : List Char) = '/' :: cs "geos_svn_revision.h" := rfl
  rw [foldname, List.append_assoc, this]
  simp [List.append_assoc]

theorem cmakefile_eq (g : GeosLibrary) : cmakefile g = osJoin g.root (cmakeRel g) := by
  rw [cmakefile, zipfold, osJoin_assoc, cmakeRel]
  have : (cs "/capi/CMakeLists.txt" : List Char) = '/' :: cs "capi/CMakeLists.txt" := rfl
  rw [foldname, List.append_assoc, this]
  simp [List.append_assoc]

theorem cmakefile_ne_svn (g : GeosLibrary) : cmakefile g ≠ svn_hfile g := by
  rw [cmakefile, svn_hfile]
  intro h
  rw [osJoin_inj] at h
  exact absurd h (by decide)

theorem isUnderEq_osJoin (d x : List Char) : isUnderEq d (osJoin d x) = true := by
  simp only [isUnderEq, osJoin, Bool.or_eq_true]
  right
  rw [prefOf_iff]
  exact ⟨x, by simp⟩

theorem isUnderEq_zippath (g : GeosLibrary) : isUnderEq (zipfold g) (zippath g) = false := by
  simp only [isUnderEq, Bool.or_eq_false_iff]
  constructor
  · simp only [decide_eq_false_iff_not]
    intro h
    rw [zippath, zipfold, osJoin_inj] at h
    have hlen := congrArg List.length h
    rw [List.length_append] at hlen
    have h4 : (cs ".zip").length = 4 := rfl
    omega
  · rw [Bool.eq_false_iff]
    intro h
    rw [prefOf_iff] at h
    have e1 : zipfold g ++ ['/'] = (g.root ++ '/' :: foldname g) ++ ['/'] := by
      simp [zipfold, osJoin]
    have e2 : zippath g = (g.root ++ '/' :: foldname g) ++ cs ".zip" := by
      simp [zippath, osJoin]
    rw [e1, e2, List.prefix_append_right_inj] at h
    rcases h with ⟨t, ht⟩
    have hz : (cs ".zip" : List Char) = '.' :: cs "zip" := rfl
    rw [hz] at ht
    simp only [List.cons_append, List.nil_append] at ht
    exact absurd (List.cons.inj ht).1 (by decide)

theorem svnRel_ne_cmakeRel (g : GeosLibrary) : svnRel g ≠ cmakeRel g := by
  rw [svnRel, cmakeRel]
  intro h
  have := List.append_cancel_left h
  exact absurd this (by decide)

/-! ## Lemmas: `extractall` -/

theorem extractall_dirs (root : List Char) (arc : List (List Char × List Char)) (fs : FS) :
    (extractall root arc fs).dirs = fs.dirs := by
  induction arc generalizing fs with
  | nil => rfl
  | cons e rest ih =>
    obtain ⟨p, c⟩ := e
    rw [extractall, ih, writeFile_dirs]

theorem lookupFile_keys_none (l : List (List Char × List Char)) (p : List Char)
    (h : p ∉ l.map Prod.fst) : lookupFile l p = none := by
  apply lookupFile_eq_none_of_keys
  intro e he heq
  exact h (heq ▸ List.mem_map_of_mem Prod.fst he)

theorem extractall_lookup_none (root : List Char) (arc : List (List Char × List Char))
    (fs : FS) (p : List Char) (h : lookupFile arc p = none) :
    lookupFile (extractall root arc fs).files (osJoin root p) =
      lookupFile fs.files (osJoin root p) := by
  induction arc generalizing fs with
  | nil => rfl
  | cons e rest ih =>
    obtain ⟨k, v⟩ := e
    simp only [lookupFile] at h
    by_cases hk : k = p
    · rw [if_pos hk] at h; exact absurd h (by simp)
    · rw [if_neg hk] at h
      rw [extractall, ih _ h,
        lookupFile_writeFile_ne _ _ _ _ (fun hh => hk ((osJoin_inj root k p).mp hh.symm))]

theorem extractall_lookup_some (root : List Char) (arc : List (List Char × List Char))
    (fs : FS) (p c : List Char) (hnd : (arc.map Prod.fst).Nodup)
    (h : lookupFile arc p = some c) :
    lookupFile (extractall root arc fs).files (osJoin root p) = some c := by
  induction arc generalizing fs with
  | nil => simp [lookupFile] at h
  | cons e rest ih =>
    obtain ⟨k, v⟩ := e
    simp only [List.map_cons, List.nodup_cons] at hnd
    simp only [lookupFile] at h
    by_cases hk : k = p
    · rw [if_pos hk] at h
      subst hk
      have hrest : lookupFile rest k = none := lookupFile_keys_none rest k hnd.1
      rw [extractall, extractall_lookup_none root rest _ k hrest]
      rw [lookupFile_writeFile_self]
      exact h.symm ▸ rfl
    · rw [if_neg hk] at h
      rw [extractall]
      exact ih _ hnd.2 h

/-! ## Lemmas: the stages of `extract` -/

theorem ensureZip_ok (g : GeosLibrary) (fs : FS) :
    ensureZip g (.ok ()) fs = .ok (ensureZipFS g fs) := by
  rw [ensureZip, ensureZipFS]
  by_cases h : pathExists fs (zippath g) = true
  · rw [if_pos h, if_pos h]
  · rw [if_neg h, if_neg h]

theorem ensureZipFS_dirs (g : GeosLibrary) (fs : FS) :
    (ensureZipFS g fs).dirs = fs.dirs := by
  rw [ensureZipFS]
  by_cases h : pathExists fs (zippath g) = true
  · rw [if_pos h]
  · rw [if_neg h, writeFile_dirs]

theorem ensureZipFS_lookup_under (g : GeosLibrary) (fs : FS) (q : List Char)
    (hq : isUnderEq (zipfold g) q = true) :
    lookupFile (ensureZipFS g fs).files q = lookupFile fs.files q := by
  rw [ensureZipFS]
  by_cases h : pathExists fs (zippath g) = true
  · rw [if_pos h]
  · rw [if_neg h]
    apply lookupFile_writeFile_ne
    intro he
    rw [he] at hq
    rw [isUnderEq_zippath g] at hq
    cases hq

theorem ensureZipFS_pathExists_under (g : GeosLibrary) (fs : FS) (q : List Char)
    (hq : isUnderEq (zipfold g) q = true) :
    pathExists (ensureZipFS g fs) q = pathExists fs q := by
  rw [pathExists, pathExists, ensureZipFS_dirs, ensureZipFS_lookup_under g fs q hq]

theorem isUnderEq_self (d : List Char) : isUnderEq d d = true := by
  simp [isUnderEq]

theorem clearDest_true (g : GeosLibrary) (fs : FS) :
    clearDest g true fs = .ok (clearFS g fs) := by
  rw [clearDest, clearFS]
  by_cases h : pathExists fs (zipfold g) = true
  · rw [if_pos h, if_pos h, if_neg (by simp)]
  · rw [if_neg h, if_neg h]

theorem clearFS_clear (g : GeosLibrary) (fs : FS)
    (hclean : pathExists fs (zipfold g) = false → subtreeClear fs (zipfold g) = true)
    (q : List Char) (hq : isUnderEq (zipfold g) q = true) :
    pathExists (clearFS g fs) q = false := by
  rw [clearFS]
  by_cases h : pathExists fs (zipfold g) = true
  · rw [if_pos h]
    exact rmtree_pathExists fs (zipfold g) q hq
  · rw [if_neg h]
    exact subtreeClear_pathExists fs (zipfold g) q (hclean (by simpa using h)) hq

theorem clearFS_dirs_clear (g : GeosLibrary) (fs : FS)
    (hclean : pathExists fs (zipfold g) = false → subtreeClear fs (zipfold g) = true)
    (q : List Char) (hq : isUnderEq (zipfold g) q = true) :
    q ∉ (clearFS g fs).dirs := by
  intro hmem
  have hex : pathExists (clearFS g fs) q = true := by
    simp only [pathExists, Bool.or_eq_true]
    right
    rw [List.any_eq_true]
    exact ⟨q, hmem, by simp⟩
  rw [clearFS_clear g fs hclean q hq] at hex
  cases hex


theorem extract_ok (g : GeosLibrary) (arc : List (List Char × List Char)) (fs : FS)
    (content : List Char) (hnd : (arc.map Prod.fst).Nodup)
    (hcm : lookupFile arc (cmakeRel g) = some content) :
    extract g arc (.ok ()) true fs = .ok (extractFS g arc fs content) := by
  rw [extract, ensureZip_ok]
  dsimp only
  rw [clearDest_true]
  dsimp only
  have hlk : lookupFile (extractall g.root arc (clearFS g (ensureZipFS g fs))).files
      (cmakefile g) = some content := by
    rw [cmakefile_eq]
    exact extractall_lookup_some _ _ _ _ _ hnd hcm
  rw [patchStep, hlk]
  rfl

theorem svnStep_lookup_cmake (g : GeosLibrary) (fs : FS) :
    lookupFile (svnStep g fs).files (cmakefile g) = lookupFile fs.files (cmakefile g) := by
  rw [svnStep]
  by_cases h : (tupleLt g.version_tuple [3, 6, 0] && !pathExists fs (svn_hfile g)) = true
  · rw [if_pos h]
    exact lookupFile_writeFile_ne _ _ _ _ (cmakefile_ne_svn g)
  · rw [if_neg h]

theorem pathExists_false_lookup (fs : FS) (q : List Char)
    (h : pathExists fs q = false) : lookupFile fs.files q = none := by
  simp only [pathExists, Bool.or_eq_false_iff] at h
  cases hl : lookupFile fs.files q with
  | none => rfl
  | some v => rw [hl] at h; simp at h

theorem pathExists_false_dirs (fs : FS) (q : List Char)
    (h : pathExists fs q = false) : q ∉ fs.dirs := by
  simp only [pathExists, Bool.or_eq_false_iff] at h
  intro hm
  rw [List.any_eq_false] at h
  exact absurd (by simp : decide (q = q) = true) (h.2 q hm)

theorem subtreeClear_writeFile (fs : FS) (p c d : List Char)
    (hp : isUnderEq d p = false) (h : subtreeClear fs d = true) :
    subtreeClear (writeFile fs p c) d = true := by
  simp only [subtreeClear, writeFile, List.all_cons, Bool.and_eq_true] at *
  exact ⟨⟨by simp [hp], h.1⟩, h.2⟩

theorem ensureZip_clean (g : GeosLibrary) (fs : FS)
    (hclean : pathExists fs (zipfold g) = false → subtreeClear fs (zipfold g) = true) :
    pathExists (ensureZipFS g fs) (zipfold g) = false →
      subtreeClear (ensureZipFS g fs) (zipfold g) = true := by
  intro h
  rw [ensureZipFS_pathExists_under g fs (zipfold g) (isUnderEq_self _)] at h
  rw [ensureZipFS]
  by_cases hz : pathExists fs (zippath g) = true
  · rw [if_pos hz]; exact hclean h
  · rw [if_neg hz]
    exact subtreeClear_writeFile fs (zippath g) [] (zipfold g) (isUnderEq_zippath g)
      (hclean h)

theorem isUnderEq_svn (g : GeosLibrary) : isUnderEq (zipfold g) (svn_hfile g) = true := by
  rw [svn_hfile]; exact isUnderEq_osJoin _ _

/-- Content of the revision header after a successful overwriting extraction:
the archive's copy when it ships one, the synthesized macro line below 3.6.0
when it does not, and nothing at all at or above 3.6.0. -/
theorem extractFS_svn (g : GeosLibrary) (arc : List (List Char × List Char)) (fs : FS)
    (content : List Char) (hnd : (arc.map Prod.fst).Nodup)
    (hclean : pathExists fs (zipfold g) = false → subtreeClear fs (zipfold g) = true) :
    (tupleLt g.version_tuple [3, 6, 0] = true →
      lookupFile (extractFS g arc fs content).files (svn_hfile g) =
        some ((lookupFile arc (svnRel g)).getD svnContent))
    ∧ (tupleLt g.version_tuple [3, 6, 0] = false →
      pathExists (extractFS g arc fs content) (svn_hfile g) =
        (lookupFile arc (svnRel g)).isSome) := by
  have hsvnu := isUnderEq_svn g
  set fs2 := clearFS g (ensureZipFS g fs) with hfs2
  set fs3 := extractall g.root arc fs2 with hfs3
  set fs4 := writeFile fs3 (cmakefile g) (patchContent content) with hfs4
  have hlk4 : lookupFile fs4.files (svn_hfile g) = lookupFile fs3.files (svn_hfile g) :=
    lookupFile_writeFile_ne _ _ _ _ (fun h => cmakefile_ne_svn g h.symm)
  have hdirs4 : fs4.dirs = fs2.dirs := by
    rw [hfs4, writeFile_dirs, hfs3, extractall_dirs]
  have hclean2 : ∀ q, isUnderEq (zipfold g) q = true → pathExists fs2 q = false :=
    fun q hq => clearFS_clear g (ensureZipFS g fs) (ensureZip_clean g fs hclean) q hq
  have hsvndir : svn_hfile g ∉ fs2.dirs :=
    pathExists_false_dirs fs2 _ (hclean2 _ hsvnu)
  have hpe4 : pathExists fs4 (svn_hfile g) = (lookupFile arc (svnRel g)).isSome := by
    cases hl : lookupFile arc (svnRel g) with
    | some v =>
      have : lookupFile fs3.files (svn_hfile g) = some v := by
        rw [hfs3, svn_hfile_eq]
        exact extractall_lookup_some _ _ _ _ _ hnd hl
      simp [pathExists, hlk4, this]
    | none =>
      have h3 : lookupFile fs3.files (svn_hfile g) = none := by
        rw [hfs3, svn_hfile_eq]
        rw [extractall_lookup_none _ _ _ _ hl, ← svn_hfile_eq]
        exact pathExists_false_lookup fs2 _ (hclean2 _ hsvnu)
      simp only [pathExists, hlk4, h3, Option.isSome_none, Bool.false_or, hdirs4]
      rw [List.any_eq_false]
      intro x hx hxq
      exact hsvndir (of_decide_eq_true hxq ▸ hx)
  constructor
  · intro hvt
    rw [extractFS, svnStep]
    cases hl : lookupFile arc (svnRel g) with
    | some v =>
      have hpe : pathExists fs4 (svn_hfile g) = true := by rw [hpe4, hl]; rfl
      rw [← hfs2, ← hfs3, ← hfs4, if_neg (by rw [hpe]; simp)]
      rw [hlk4, hfs3, svn_hfile_eq]
      rw [extractall_lookup_some _ _ _ _ _ hnd hl]
      rfl
    | none =>
      have hpe : pathExists fs4 (svn_hfile g) = false := by rw [hpe4, hl]; rfl
      rw [← hfs2, ← hfs3, ← hfs4, if_pos (by rw [hvt, hpe]; rfl)]
      rw [lookupFile_writeFile_self]
      rfl
  · intro hvt
    rw [extractFS, svnStep, ← hfs2, ← hfs3, ← hfs4, if_neg (by rw [hvt]; simp)]
    exact hpe4

/-! ## Claim C1: `extract(overwrite=false)` on an existing destination -/

/-- C1 (amended): when the destination folder already exists,
`extract(overwrite=false)` raises an `OSError` — the plain, generic I/O
error class, so the condition is recognizable only by its message
`folder '<dest>' already exists`, not by a dedicated exception class — and
the failing call leaves the destination subtree (files and directories)
exactly as it was. -/
theorem c1_extract_overwrite_declined (g : GeosLibrary)
    (arc : List (List Char × List Char)) (fs : FS)
    (hdest : pathExists fs (zipfold g) = true) :
    extract g arc (.ok ()) false fs =
      .error ((plainOSError, destExistsMsg g), ensureZipFS g fs)
    ∧ catchesOSError plainOSError = true
    ∧ subtreeFiles (ensureZipFS g fs) (zipfold g) = subtreeFiles fs (zipfold g)
    ∧ subtreeDirs (ensureZipFS g fs) (zipfold g) = subtreeDirs fs (zipfold g) := by
  refine ⟨?_, rfl, ?_, ?_⟩
  · rw [extract, ensureZip_ok]
    dsimp only
    rw [clearDest]
    have hp : pathExists (ensureZipFS g fs) (zipfold g) = true := by
      rw [ensureZipFS_pathExists_under g fs _ (isUnderEq_self _)]
      exact hdest
    rw [if_pos hp, if_pos rfl]
  · rw [ensureZipFS]
    by_cases hz : pathExists fs (zippath g) = true
    · rw [if_pos hz]
    · rw [if_neg hz, subtreeFiles, writeFile]
      simp only [subtreeFiles]
      rw [List.filter_cons_of_neg]
      simp [isUnderEq_zippath g]
  · rw [subtreeDirs, subtreeDirs, ensureZipFS_dirs]

/-- C1 (counterexample to the claim as stated): at a concrete input with the
destination present, the error raised by `extract(overwrite=false)` carries
the plain `OSError` class itself, which is not distinguishable from a
generic I/O failure by exception class. -/
theorem c1_counterexample :
    extract gEx35 arcEx35 (.ok ()) false fsExDest35 =
      .error ((plainOSError, destExistsMsg gEx35), ensureZipFS gEx35 fsExDest35)
    ∧ distinguishableFromGenericIO plainOSError = false :=
  ⟨rfl, rfl⟩

/-- C1 witness: the amended theorem applied at the concrete example. -/
theorem c1_witness :
    extract gEx35 arcEx35 (.ok ()) false fsExDest35 =
      .error ((plainOSError, destExistsMsg gEx35), ensureZipFS gEx35 fsExDest35)
    ∧ catchesOSError plainOSError = true
    ∧ subtreeFiles (ensureZipFS gEx35 fsExDest35) (zipfold gEx35) =
        subtreeFiles fsExDest35 (zipfold gEx35)
    ∧ subtreeDirs (ensureZipFS gEx35 fsExDest35) (zipfold gEx35) =
        subtreeDirs fsExDest35 (zipfold gEx35) :=
  c1_extract_overwrite_declined gEx35 arcEx35 fsExDest35 (by decide)

/-! ## Claim C2: the `geos_svn_revision.h` stage -/

/-- C2: after a successful overwriting `extract`, for a version below 3.6.0
the revision header holds the archive's own copy when the archive shipped
one (left untouched) and the fixed macro line `#define GEOS_SVN_REVISION 0`
when it did not; for a version at or above 3.6.0 the file exists only if the
archive shipped it — `extract` never creates it. -/
theorem c2_svn_revision_header (g : GeosLibrary) (arc : List (List Char × List Char))
    (fs : FS) (content : List Char) (hnd : (arc.map Prod.fst).Nodup)
    (hclean : pathExists fs (zipfold g) = false → subtreeClear fs (zipfold g) = true)
    (hcm : lookupFile arc (cmakeRel g) = some content) :
    (tupleLt g.version_tuple [3, 6, 0] = true →
      (extract g arc (.ok ()) true fs).map
          (fun f => lookupFile f.files (svn_hfile g)) =
        .ok (some ((lookupFile arc (svnRel g)).getD svnContent)))
    ∧ (tupleLt g.version_tuple [3, 6, 0] = false →
      (extract g arc (.ok ()) true fs).map (fun f => pathExists f (svn_hfile g)) =
        .ok ((lookupFile arc (svnRel g)).isSome)) := by
  have hmain := extractFS_svn g arc fs content hnd hclean
  rw [extract_ok g arc fs content hnd hcm]
  constructor
  · intro hvt
    simp only [Except.map]
    rw [hmain.1 hvt]
  · intro hvt
    simp only [Except.map]
    rw [hmain.2 hvt]

/-- C2 witness: the theorem applied at version 3.5.0 with an archive that
does not ship the revision header, so the synthesized content appears. -/
theorem c2_witness :
    (tupleLt gEx35.version_tuple [3, 6, 0] = true →
      (extract gEx35 arcEx35 (.ok ()) true fsEx).map
          (fun f => lookupFile f.files (svn_hfile gEx35)) =
        .ok (some ((lookupFile arcEx35 (svnRel gEx35)).getD svnContent)))
    ∧ (tupleLt gEx35.version_tuple [3, 6, 0] = false →
      (extract gEx35 arcEx35 (.ok ()) true fsEx).map
          (fun f => pathExists f (svn_hfile gEx35)) =
        .ok ((lookupFile arcEx35 (svnRel gEx35)).isSome)) :=
  c2_svn_revision_header gEx35 arcEx35 fsEx cmContent (by decide) (by decide) (by decide)

/-! ## Lemmas: `pyReplace` -/

theorem prefOf_false {l₁ l₂ : List Char} (h : l₁.isPrefixOf l₂ = false) : ¬ l₁ <+: l₂ := by
  intro hp
  rw [← prefOf_iff] at hp
  rw [h] at hp
  cases hp

theorem hasInfix_iff (s pat : List Char) : hasInfix s pat = true ↔ pat <:+: s := by
  rw [hasInfix, List.any_eq_true]
  constructor
  · rintro ⟨t, ht, hpre⟩
    rw [List.infix_iff_prefix_suffix]
    exact ⟨t, prefOf_iff.mp hpre, (List.mem_tails _ _).mp ht⟩
  · intro h
    rw [List.infix_iff_prefix_suffix] at h
    obtain ⟨t, hp, hs⟩ := h
    exact ⟨t, (List.mem_tails _ _).mpr hs, prefOf_iff.mpr hp⟩

theorem noSuffA_spec {n o : List Char} (h : noSuffA n o = true) (u : List Char)
    (hu : u ≠ []) (hsuf : u <:+ n) (hlt : u.length < o.length) : ¬ u <+: o := by
  rw [noSuffA, List.all_eq_true] at h
  have := h u ((List.mem_tails _ _).mpr hsuf)
  simp only [Bool.or_eq_true, decide_eq_true_eq, Bool.not_eq_true'] at this
  rcases this with ((h0 | hge) | hnp)
  · exact absurd (List.eq_nil_of_length_eq_zero (by exact_mod_cast h0)) hu
  · omega
  · exact prefOf_false hnp

theorem noSuffB_spec {o n : List Char} (h : noSuffB o n = true) (w : List Char)
    (hw : w ≠ []) (hsuf : w <:+ o) (hne : w ≠ o) : ¬ w <+: n := by
  rw [noSuffB, List.all_eq_true] at h
  have := h w ((List.mem_tails _ _).mpr hsuf)
  simp only [Bool.or_eq_true, decide_eq_true_eq, Bool.not_eq_true'] at this
  rcases this with ((h0 | hl) | hnp)
  · exact absurd (List.eq_nil_of_length_eq_zero (by exact_mod_cast h0)) hw
  · exact absurd (hsuf.eq_of_length (by exact_mod_cast hl)) hne
  · exact prefOf_false hnp

theorem prefix_append_cases {l a b : List Char} (h : l <+: a ++ b) :
    l <+: a ∨ ∃ v, l = a ++ v ∧ v <+: b := by
  induction a generalizing l with
  | nil =>
    right
    exact ⟨l, by simp, by simpa using h⟩
  | cons x a' ih =>
    cases l with
    | nil => left; exact List.nil_prefix
    | cons y l' =>
      rw [List.cons_append, List.cons_prefix_cons] at h
      obtain ⟨rfl, h'⟩ := h
      rcases ih h' with hl | ⟨v, rfl, hv⟩
      · left; exact List.cons_prefix_cons.mpr ⟨rfl, hl⟩
      · right; exact ⟨v, by simp, hv⟩

theorem infix_append_cases {l a b : List Char} (h : l <:+: a ++ b) :
    l <:+: a ∨ l <:+: b ∨
      ∃ u v, l = u ++ v ∧ u ≠ [] ∧ v ≠ [] ∧ u <:+ a ∧ v <+: b := by
  induction a generalizing l with
  | nil => right; left; simpa using h
  | cons x a' ih =>
    rw [List.cons_append, List.infix_cons_iff] at h
    rcases h with hp | hi
    · cases l with
      | nil => left; exact List.nil_infix
      | cons y l' =>
        rw [List.cons_prefix_cons] at hp
        obtain ⟨rfl, hp'⟩ := hp
        rcases prefix_append_cases hp' with hl | ⟨v, rfl, hv⟩
        · left
          exact (List.cons_prefix_cons.mpr ⟨rfl, hl⟩).isInfix
        · by_cases hv0 : v = []
          · subst hv0
            left
            have he : y :: (a' ++ ([] : List Char)) = y :: a' := by simp
            rw [he]
          · right; right
            exact ⟨y :: a', v, by simp, by simp, hv0, List.suffix_rfl, hv⟩
    · rcases ih hi with h1 | h2 | ⟨u, v, rfl, hu, hv, hus, hvp⟩
      · left; exact List.infix_cons_iff.mpr (Or.inr h1)
      · right; left; exact h2
      · right; right
        refine ⟨u, v, rfl, hu, hv, hus.trans ?_, hvp⟩
        exact ⟨[x], rfl⟩

theorem pyReplaceAux_id (o n : List Char) :
    ∀ (fuel : Nat) (s : List Char), ¬ o <:+: s → pyReplaceAux o n fuel s = s := by
  intro fuel
  induction fuel with
  | zero => intro s _; rfl
  | succ f ih =>
    intro s h
    cases s with
    | nil => rfl
    | cons c rest =>
      simp only [pyReplaceAux]
      have hnp : ¬ o.isPrefixOf (c :: rest) = true := by
        intro hb
        exact h (prefOf_iff.mp hb).isInfix
      rw [if_neg hnp]
      rw [ih rest (fun hi => h (List.infix_cons_iff.mpr (Or.inr hi)))]

theorem pyReplaceAux_new (o n : List Char) (ho : o ≠ []) :
    ∀ (fuel : Nat) (s : List Char), s.length ≤ fuel → o <:+: s →
      n <:+: pyReplaceAux o n fuel s := by
  intro fuel
  induction fuel with
  | zero =>
    intro s hl h
    have hs : s = [] := List.eq_nil_of_length_eq_zero (Nat.le_zero.mp hl)
    subst hs
    exact absurd (List.infix_nil.mp h) ho
  | succ f ih =>
    intro s hl h
    cases s with
    | nil => exact absurd (List.infix_nil.mp h) ho
    | cons c rest =>
      simp only [pyReplaceAux]
      by_cases hb : o.isPrefixOf (c :: rest) = true
      · rw [if_pos hb]
        exact (List.prefix_append n _).isInfix
      · rw [if_neg hb]
        have hnp : ¬ o <+: c :: rest := prefOf_false (Bool.eq_false_iff.mpr hb)
        have hrest : o <:+: rest := by
          rcases List.infix_cons_iff.mp h with hp | hi
          · exact absurd hp hnp
          · exact hi
        have hlr : rest.length ≤ f := by simp at hl; omega
        exact List.infix_cons_iff.mpr (Or.inr (ih rest hlr hrest))

theorem pyReplaceAux_track (o n : List Char) (hB : noSuffB o n = true)
    (hlen : o.length ≤ n.length) :
    ∀ (fuel : Nat) (s w : List Char), w ≠ [] → w <:+ o → w ≠ o →
      w <+: pyReplaceAux o n fuel s → w <+: s := by
  intro fuel
  induction fuel with
  | zero => intro s w _ _ _ hp; exact hp
  | succ f ih =>
    intro s w hw hsuf hne hp
    cases s with
    | nil =>
      simp only [pyReplaceAux] at hp
      exact absurd (List.prefix_nil.mp hp) hw
    | cons c rest =>
      simp only [pyReplaceAux] at hp
      by_cases hb : o.isPrefixOf (c :: rest) = true
      · rw [if_pos hb] at hp
        have hwlt : w.length < o.length := by
          have hle := hsuf.length_le
          rcases Nat.lt_or_ge w.length o.length with hlt | hge
          · exact hlt
          · exact absurd (hsuf.eq_of_length (le_antisymm hle hge)) hne
        have hwn : w <+: n := by
          rw [List.prefix_iff_eq_take] at hp ⊢
          rwa [List.take_append_of_le_length (by omega)] at hp
        exact absurd hwn (noSuffB_spec hB w hw hsuf hne)
      · rw [if_neg hb] at hp
        cases w with
        | nil => exact absurd rfl hw
        | cons d w' =>
          rw [List.cons_prefix_cons] at hp
          obtain ⟨rfl, hp'⟩ := hp
          by_cases hw' : w' = []
          · subst hw'
            exact List.cons_prefix_cons.mpr ⟨rfl, List.nil_prefix⟩
          · have hsuf' : w' <:+ o := (List.suffix_cons d w').trans hsuf
            have hne' : w' ≠ o := by
              intro he
              have h1 := hsuf.length_le
              subst he
              simp [List.length_cons] at h1
            exact List.cons_prefix_cons.mpr ⟨rfl, ih rest w' hw' hsuf' hne' hp'⟩

theorem pyReplaceAux_no_old (o n : List Char) (ho : o ≠ [])
    (hlen : o.length ≤ n.length) (hni : ¬ o <:+: n)
    (hA : noSuffA n o = true) (hB : noSuffB o n = true) :
    ∀ (fuel : Nat) (s : List Char), s.length ≤ fuel →
      ¬ o <:+: pyReplaceAux o n fuel s := by
  intro fuel
  induction fuel with
  | zero =>
    intro s hl
    have hs : s = [] := List.eq_nil_of_length_eq_zero (Nat.le_zero.mp hl)
    subst hs
    intro h
    exact ho (List.infix_nil.mp h)
  | succ f ih =>
    intro s hl
    cases s with
    | nil =>
      intro h
      exact ho (List.infix_nil.mp (by simpa [pyReplaceAux] using h))
    | cons c rest =>
      simp only [pyReplaceAux]
      have hlr : rest.length ≤ f := by simp at hl; omega
      by_cases hb : o.isPrefixOf (c :: rest) = true
      · rw [if_pos hb]
        intro h
        rcases infix_append_cases h with h1 | h2 | ⟨u, v, he, hu, hv, hus, hvp⟩
        · exact hni h1
        · exact ih _ (by simp only [List.length_drop]; omega) h2
        · have hup : u <+: o := ⟨v, he.symm⟩
          have hul : u.length < o.length := by
            have hel := congrArg List.length he
            simp only [List.length_append] at hel
            have hv1 : 1 ≤ v.length := by
              cases v with
              | nil => exact absurd rfl hv
              | cons _ _ => simp
            omega
          exact noSuffA_spec hA u hu hus hul hup
      · rw [if_neg hb]
        intro h
        rcases List.infix_cons_iff.mp h with hp | hi
        · have hco : ∃ d o', o = d :: o' := by
            cases ho' : o with
            | nil => exact absurd ho' ho
            | cons d o' => exact ⟨d, o', rfl⟩
          obtain ⟨d, o', heo⟩ := hco
          rw [heo, List.cons_prefix_cons] at hp
          obtain ⟨rfl, hp'⟩ := hp
          by_cases ho'0 : o' = []
          · apply hb
            rw [prefOf_iff, heo, ho'0]
            exact List.cons_prefix_cons.mpr ⟨rfl, List.nil_prefix⟩
          · have hsuf : o' <:+ o := by rw [heo]; exact ⟨[d], rfl⟩
            have hne : o' ≠ o := by
              intro he
              have hlo : o.length = o'.length + 1 := by rw [heo]; simp
              rw [← he] at hlo
              omega
            rw [← heo] at hp'
            have htr := pyReplaceAux_track o n hB hlen f rest o' ho'0 hsuf hne hp'
            apply hb
            rw [prefOf_iff, heo]
            exact List.cons_prefix_cons.mpr ⟨rfl, htr⟩
        · exact ih rest hlr hi

theorem pyReplace_id {s o n : List Char} (h : ¬ o <:+: s) : pyReplace s o n = s :=
  pyReplaceAux_id o n s.length s h

theorem pyReplace_new {s o n : List Char} (ho : o ≠ []) (h : o <:+: s) :
    n <:+: pyReplace s o n :=
  pyReplaceAux_new o n ho s.length s le_rfl h

theorem pyReplace_no_old {s o n : List Char} (ho : o ≠ [])
    (hlen : o.length ≤ n.length) (hni : ¬ o <:+: n)
    (hA : noSuffA n o = true) (hB : noSuffB o n = true) :
    ¬ o <:+: pyReplace s o n :=
  pyReplaceAux_no_old o n ho hlen hni hA hB s.length s le_rfl

/-- The concrete link-directive pair satisfies every side condition of the
replacement lemmas. -/
theorem oldnew_conds :
    oldtext ≠ [] ∧ oldtext.length ≤ newtext.length ∧
      hasInfix newtext oldtext = false ∧
      noSuffA newtext oldtext = true ∧ noSuffB oldtext newtext = true := by
  refine ⟨by decide, by decide, by decide, by decide, by decide⟩

theorem oldtext_not_infix_newtext : ¬ oldtext <:+: newtext := by
  intro h
  have := (hasInfix_iff newtext oldtext).mpr h
  rw [oldnew_conds.2.2.1] at this
  cases this

theorem univNLAux_id : ∀ (fuel : Nat) (s : List Char), '\r' ∉ s → univNLAux fuel s = s := by
  intro fuel
  induction fuel with
  | zero => intro s _; rfl
  | succ f ih =>
    intro s h
    cases s with
    | nil => rfl
    | cons c rest =>
      simp only [List.mem_cons, not_or] at h
      simp only [univNLAux]
      rw [if_neg (fun hc => h.1 hc.symm)]
      rw [ih rest h.2]

theorem univNL_id {s : List Char} (h : '\r' ∉ s) : univNL s = s :=
  univNLAux_id s.length s h

/-! ## Claim C3: the `CMakeLists.txt` patch -/

/-- C3: after a successful overwriting `extract`, the build descriptor holds
exactly the per-line rewrite of its pre-patch content; no patched line
contains the shared-library directive, some patched line contains the
static-library directive, and every line without the original directive is
rewritten to itself (byte-identical pass-through, position preserved by the
line-wise map). -/
theorem c3_cmake_patched (g : GeosLibrary) (arc : List (List Char × List Char))
    (fs : FS) (content : List Char) (hnd : (arc.map Prod.fst).Nodup)
    (hcm : lookupFile arc (cmakeRel g) = some content)
    (hcr : '\r' ∉ content)
    (hold : (pyReadlines content).any (fun l => hasInfix l oldtext) = true) :
    (extract g arc (.ok ()) true fs).map (fun f => lookupFile f.files (cmakefile g)) =
        .ok (some (patchContent content))
    ∧ pyReadlines content = splitLines content
    ∧ (patchedLines content).all (fun l => !hasInfix l oldtext) = true
    ∧ (patchedLines content).any (fun l => hasInfix l newtext) = true
    ∧ (pyReadlines content).all
        (fun l => hasInfix l oldtext || decide (pyReplace l oldtext newtext = l)) = true := by
  obtain ⟨hne, hlen, hninf, hA, hB⟩ := oldnew_conds
  refine ⟨?_, ?_, ?_, ?_, ?_⟩
  · rw [extract_ok g arc fs content hnd hcm]
    simp only [Except.map]
    rw [extractFS, svnStep_lookup_cmake, lookupFile_writeFile_self]
  · rw [pyReadlines, univNL_id hcr]
  · rw [List.all_eq_true]
    intro x hx
    rw [patchedLines] at hx
    obtain ⟨l, _, rfl⟩ := List.mem_map.mp hx
    have hno : ¬ oldtext <:+: pyReplace l oldtext newtext :=
      pyReplace_no_old hne hlen oldtext_not_infix_newtext hA hB
    cases hb : hasInfix (pyReplace l oldtext newtext) oldtext with
    | true => exact absurd ((hasInfix_iff _ _).mp hb) hno
    | false => rfl
  · rw [List.any_eq_true] at hold ⊢
    obtain ⟨l, hl, hb⟩ := hold
    refine ⟨pyReplace l oldtext newtext, ?_, ?_⟩
    · rw [patchedLines]
      exact List.mem_map_of_mem _ hl
    · exact (hasInfix_iff _ _).mpr (pyReplace_new hne ((hasInfix_iff _ _).mp hb))
  · rw [List.all_eq_true]
    intro l hl
    cases hb : hasInfix l oldtext with
    | true => rfl
    | false =>
      have hid : pyReplace l oldtext newtext = l :=
        pyReplace_id (fun hi => by rw [(hasInfix_iff _ _).mpr hi] at hb; cases hb)
      simp [hid]

/-- C3 witness: the theorem applied to an archive whose build descriptor
contains the shared-library directive on its middle line. -/
theorem c3_witness :
    (extract gEx35 arcEx35 (.ok ()) true fsEx).map
        (fun f => lookupFile f.files (cmakefile gEx35)) =
      .ok (some (patchContent cmContent))
    ∧ pyReadlines cmContent = splitLines cmContent
    ∧ (patchedLines cmContent).all (fun l => !hasInfix l oldtext) = true
    ∧ (patchedLines cmContent).any (fun l => hasInfix l newtext) = true
    ∧ (pyReadlines cmContent).all
        (fun l => hasInfix l oldtext || decide (pyReplace l oldtext newtext = l)) = true :=
  c3_cmake_patched gEx35 arcEx35 fsEx cmContent (by decide) (by decide) (by decide) (by decide)

/-! ## Lemmas: version parsing -/

theorem mem_pyStrip {c : Char} {t : List Char} (h : c ∈ pyStrip t) : c ∈ t := by
  rw [pyStrip] at h
  rw [List.mem_reverse] at h
  have h1 := (List.dropWhile_sublist isPyWS).subset h
  rw [List.mem_reverse] at h1
  exact (List.dropWhile_sublist isPyWS).subset h1

theorem splitDot_ne_nil (t : List Char) : splitDot t ≠ [] := by
  cases t with
  | nil => simp [splitDot]
  | cons c rest =>
    simp only [splitDot]
    by_cases hc : c = '.'
    · rw [if_pos hc]; simp
    · rw [if_neg hc]
      cases hsp : splitDot rest with
      | nil => simp
      | cons g gs => simp

theorem mem_splitDot_mem {s comp : List Char} {c : Char}
    (h : comp ∈ splitDot s) (hc : c ∈ comp) : c ∈ s := by
  induction s generalizing comp with
  | nil =>
    simp [splitDot] at h
    subst h
    cases hc
  | cons a rest ih =>
    simp only [splitDot] at h
    by_cases ha : a = '.'
    · rw [if_pos ha] at h
      rcases List.mem_cons.mp h with rfl | hm
      · cases hc
      · exact List.mem_cons_of_mem a (ih hm hc)
    · rw [if_neg ha] at h
      cases hsp : splitDot rest with
      | nil => exact absurd hsp (splitDot_ne_nil rest)
      | cons g gs =>
        rw [hsp] at h
        rcases List.mem_cons.mp h with rfl | hm
        · rcases List.mem_cons.mp hc with rfl | hg
          · exact List.mem_cons_self _ _
          · exact List.mem_cons_of_mem a (ih (hsp ▸ List.mem_cons_self g gs) hg)
        · exact List.mem_cons_of_mem a (ih (hsp ▸ List.mem_cons_of_mem g hm) hc)

theorem intList_mem {comps : List (List Char)} {vt : List Int} {v : Int}
    (h : intList comps = some vt) (hv : v ∈ vt) :
    ∃ comp ∈ comps, pyInt comp = some v := by
  induction comps generalizing vt with
  | nil =>
    simp only [intList, Option.some.injEq] at h
    subst h
    cases hv
  | cons c rest ih =>
    simp only [intList] at h
    cases hc : pyInt c with
    | none => rw [hc] at h; cases h
    | some w =>
      rw [hc] at h
      cases hrest : intList rest with
      | none => rw [hrest] at h; cases h
      | some ws =>
        rw [hrest] at h
        simp only [Option.some.injEq] at h
        subst h
        rcases List.mem_cons.mp hv with rfl | hm
        · exact ⟨c, List.mem_cons_self _ _, hc⟩
        · obtain ⟨comp, hcm, hp⟩ := ih hrest hm
          exact ⟨comp, List.mem_cons_of_mem c hcm, hp⟩

theorem pyInt_nonneg {t : List Char} {v : Int} (h : pyInt t = some v)
    (hm : '-' ∉ t) : isNonneg v = true := by
  rw [pyInt] at h
  cases hs : pyStrip t with
  | nil => rw [hs] at h; cases h
  | cons c rest =>
    rw [hs] at h
    dsimp only at h
    by_cases hp : c = '+'
    · rw [if_pos hp] at h
      obtain ⟨n, _, rfl⟩ := Option.map_eq_some'.mp h
      rfl
    · rw [if_neg hp] at h
      by_cases hn : c = '-'
      · exfalso
        apply hm
        apply mem_pyStrip
        rw [hs, hn]
        exact List.mem_cons_self _ _
      · rw [if_neg hn] at h
        obtain ⟨n, _, rfl⟩ := Option.map_eq_some'.mp h
        rfl

/-! ## Claim C4: version components and non-negativity -/

/-- C4 (counterexample to the claim as stated): the constructor accepts the
dotted string `"3.-1"` — `int("-1")` parses — and the resulting tuple has a
negative component. -/
theorem c4_counterexample :
    intList (splitDot (cs "3.-1")) = some [3, -1] ∧
      ([3, -1] : List Int).all isNonneg = false := by
  refine ⟨by decide, by decide⟩

/-- C4 (amended): every component of a parsed version tuple is an integer,
and whenever the version string contains no `'-'` sign character, every
component is non-negative. -/
theorem c4_components_nonneg (s : List Char) (vt : List Int)
    (h : intList (splitDot s) = some vt) (hm : '-' ∉ s) :
    vt.all isNonneg = true := by
  rw [List.all_eq_true]
  intro v hv
  obtain ⟨comp, hcm, hp⟩ := intList_mem h hv
  exact pyInt_nonneg hp (fun hc => hm (mem_splitDot_mem hcm hc))

/-- C4 witness: the amended theorem applied to `"3.6.0"`. -/
theorem c4_witness :
    intList (splitDot (cs "3.6.0")) = some [3, 6, 0] ∧
      ([3, 6, 0] : List Int).all isNonneg = true :=
  ⟨by decide, c4_components_nonneg (cs "3.6.0") [3, 6, 0] (by decide) (by decide)⟩

/-! ## Lemmas: decimal digits and the version round-trip -/

theorem digit_bounds (c : Char) (h : c.isDigit = true) : 48 ≤ c.toNat ∧ c.toNat ≤ 57 := by
  simp only [Char.isDigit, Bool.and_eq_true, decide_eq_true_eq] at h
  exact ⟨h.1, h.2⟩

theorem digitChar_eq (c : Char) (h : c.isDigit = true) :
    Char.ofNat (48 + digitVal c) = c := by
  obtain ⟨h1, _⟩ := digit_bounds c h
  have he : 48 + digitVal c = c.toNat := by rw [digitVal]; omega
  rw [he, Char.ofNat_toNat]

theorem digitVal_lt (c : Char) (h : c.isDigit = true) : digitVal c < 10 := by
  obtain ⟨_, h2⟩ := digit_bounds c h
  rw [digitVal]
  omega

theorem digitVal_zero (c : Char) (h : c.isDigit = true) (h0 : digitVal c = 0) : c = '0' := by
  obtain ⟨h1, h2⟩ := digit_bounds c h
  rw [digitVal] at h0
  have ht : c.toNat = 48 := by omega
  have := congrArg Char.ofNat ht
  rwa [Char.ofNat_toNat] at this

theorem map_eq_self {α : Type} {l : List α} {f : α → α} (h : ∀ x ∈ l, f x = x) :
    l.map f = l := by
  induction l with
  | nil => rfl
  | cons a t ih =>
    simp only [List.map_cons]
    rw [h a (List.mem_cons_self a t), ih (fun x hx => h x (List.mem_cons_of_mem a hx))]

theorem natDigitsAux_eq : ∀ (fuel s : Nat), s ≤ fuel → natDigitsAux fuel s = Nat.digits 10 s := by
  intro fuel
  induction fuel with
  | zero =>
    intro s hs
    have : s = 0 := Nat.le_zero.mp hs
    subst this
    rw [Nat.digits_zero]
    rfl
  | succ f ih =>
    intro s hs
    rw [natDigitsAux]
    by_cases h0 : s = 0
    · subst h0
      rw [if_pos rfl, Nat.digits_zero]
    · rw [if_neg h0]
      have hdiv : s / 10 ≤ f := by
        have := Nat.div_lt_self (Nat.pos_of_ne_zero h0) (by norm_num : 1 < 10)
        omega
      rw [ih _ hdiv]
      exact (Nat.digits_def' (by norm_num : 1 < 10) (Nat.pos_of_ne_zero h0)).symm

theorem natDigits_eq (n : Nat) : natDigits n = Nat.digits 10 n :=
  natDigitsAux_eq n n le_rfl

theorem pyStrip_digits {c : List Char} (hne : c ≠ []) (hd : ∀ x ∈ c, x.isDigit = true) :
    pyStrip c = c := by
  have hnws : ∀ x ∈ c, isPyWS x = false := by
    intro x hx
    have hdx := hd x hx
    cases hws : isPyWS x with
    | false => rfl
    | true =>
      rw [isPyWS] at hws
      simp only [Bool.or_eq_true, decide_eq_true_eq] at hws
      rcases hws with ((((h1 | h2) | h3) | h4) | h5) | h6 <;>
        (subst_vars; exact absurd hdx (by decide))
  have h1 : c.dropWhile isPyWS = c := by
    cases c with
    | nil => rfl
    | cons a t =>
      rw [List.dropWhile_cons, if_neg]
      rw [hnws a (List.mem_cons_self a t)]
      simp
  rw [pyStrip, h1]
  have h2 : c.reverse.dropWhile isPyWS = c.reverse := by
    cases hrev : c.reverse with
    | nil => rfl
    | cons a t =>
      rw [List.dropWhile_cons, if_neg]
      have ha : a ∈ c := by
        rw [← List.mem_reverse, hrev]
        exact List.mem_cons_self a t
      rw [hnws a ha]
      simp
  rw [h2, List.reverse_reverse]

theorem parseUD_digits : ∀ (ds : List Char) (acc : Nat),
    (∀ x ∈ ds, x.isDigit = true) →
    parseUD acc ds = some (ds.foldl (fun a d => a * 10 + digitVal d) acc) := by
  intro ds
  induction ds with
  | nil => intro acc _; rfl
  | cons d rest ih =>
    intro acc hd
    have hdd : d.isDigit = true := hd d (List.mem_cons_self d rest)
    rw [parseUD.eq_def]
    dsimp only
    rw [if_neg (by intro h; rw [h] at hdd; exact absurd hdd (by decide))]
    rw [if_pos hdd, List.foldl_cons]
    exact ih _ (fun x hx => hd x (List.mem_cons_of_mem d hx))

theorem foldl_base10 : ∀ (vs : List Nat) (acc : Nat),
    vs.foldl (fun a d => a * 10 + d) acc =
      acc * 10 ^ vs.length + Nat.ofDigits 10 vs.reverse := by
  intro vs
  induction vs with
  | nil => intro acc; simp [Nat.ofDigits]
  | cons v rest ih =>
    intro acc
    rw [List.foldl_cons, ih]
    rw [List.reverse_cons, Nat.ofDigits_append]
    simp only [List.length_cons, List.length_reverse, Nat.ofDigits_singleton]
    ring

theorem digitsVal_eq_ofDigits (c : List Char) :
    digitsVal c = Nat.ofDigits 10 (c.map digitVal).reverse := by
  rw [digitsVal, ← List.foldl_map, foldl_base10]
  simp

theorem canonical_parts {c : List Char} (h : canonicalComp c = true) :
    c ≠ [] ∧ (∀ x ∈ c, x.isDigit = true) ∧ (c = ['0'] ∨ ∀ h2 : c ≠ [], c.head h2 ≠ '0') := by
  cases c with
  | nil => cases h
  | cons d rest =>
    rw [canonicalComp] at h
    simp only [Bool.and_eq_true, Bool.or_eq_true, decide_eq_true_eq,
      List.isEmpty_iff, List.all_eq_true] at h
    obtain ⟨⟨hd, hrest⟩, hlast⟩ := h
    refine ⟨by simp, ?_, ?_⟩
    · intro x hx
      rcases List.mem_cons.mp hx with rfl | hm
      · exact hd
      · exact hrest x hm
    · rcases hlast with hne0 | hemp
      · right; intro _; exact hne0
      · subst hemp
        by_cases h0 : d = '0'
        · left; rw [h0]
        · right; intro _; exact h0

theorem natToChars_digitsVal {c : List Char} (hne : c ≠ [])
    (hdig : ∀ x ∈ c, x.isDigit = true)
    (hshape : c = ['0'] ∨ ∀ h2 : c ≠ [], c.head h2 ≠ '0') :
    natToChars (digitsVal c) = c := by
  rcases hshape with h0 | hhead
  · subst h0
    rfl
  · have hA : digitsVal c = Nat.ofDigits 10 (c.map digitVal).reverse :=
      digitsVal_eq_ofDigits c
    have hlt : ∀ d ∈ (c.map digitVal).reverse, d < 10 := by
      intro d hd
      rw [List.mem_reverse] at hd
      obtain ⟨x, hx, rfl⟩ := List.mem_map.mp hd
      exact digitVal_lt x (hdig x hx)
    have hlne : (c.map digitVal).reverse ≠ [] := by
      intro hh
      apply hne
      have := congrArg List.length hh
      simp only [List.length_reverse, List.length_map, List.length_nil] at this
      exact List.eq_nil_of_length_eq_zero this
    have hmne : c.map digitVal ≠ [] := by
      intro hh
      apply hlne
      rw [hh]
      rfl
    have hlast : (c.map digitVal).reverse.getLast hlne ≠ 0 := by
      rw [List.getLast_reverse]
      cases c with
      | nil => exact absurd rfl hne
      | cons d rest =>
        simp only [List.map_cons, List.head_cons]
        intro h0
        exact hhead (by simp) (digitVal_zero d (hdig d (List.mem_cons_self d rest)) h0)
    have hB : Nat.digits 10 (Nat.ofDigits 10 (c.map digitVal).reverse) =
        (c.map digitVal).reverse :=
      Nat.digits_ofDigits 10 (by norm_num) _ hlt (fun _ => hlast)
    have hdg : Nat.digits 10 (digitsVal c) = (c.map digitVal).reverse := by
      rw [hA]; exact hB
    have hn0 : digitsVal c ≠ 0 := by
      intro h0
      rw [h0, Nat.digits_zero] at hdg
      exact hlne hdg.symm
    rw [natToChars, if_neg hn0, natDigits_eq, hdg]
    rw [List.map_reverse, List.reverse_reverse, List.map_map]
    exact map_eq_self (fun x hx => digitChar_eq x (hdig x hx))

theorem canonical_roundtrip {c : List Char} (h : canonicalComp c = true) :
    ∃ n : Nat, pyInt c = some (Int.ofNat n) ∧ intToChars (Int.ofNat n) = c := by
  obtain ⟨hne, hdig, hshape⟩ := canonical_parts h
  refine ⟨digitsVal c, ?_, ?_⟩
  · rw [pyInt, pyStrip_digits hne hdig]
    cases c with
    | nil => exact absurd rfl hne
    | cons d rest =>
      dsimp only
      have hdd : d.isDigit = true := hdig d (List.mem_cons_self d rest)
      rw [if_neg (by intro hp; rw [hp] at hdd; exact absurd hdd (by decide))]
      rw [if_neg (by intro hp; rw [hp] at hdd; exact absurd hdd (by decide))]
      rw [pyIntBody.eq_def]
      dsimp only
      rw [if_pos hdd, parseUD_digits _ _ hdig]
      rfl
  · rw [intToChars, if_neg (Int.not_lt.mpr (by exact Int.ofNat_nonneg _))]
    show natToChars (digitsVal c) = c
    exact natToChars_digitsVal hne hdig hshape

theorem intList_canonical : ∀ (comps : List (List Char)),
    comps.all canonicalComp = true →
    ∃ vt, intList comps = some vt ∧ vt.map intToChars = comps := by
  intro comps
  induction comps with
  | nil => intro _; exact ⟨[], rfl, rfl⟩
  | cons c rest ih =>
    intro h
    rw [List.all_cons, Bool.and_eq_true] at h
    obtain ⟨n, hp, hi⟩ := canonical_roundtrip h.1
    obtain ⟨vt, hint, hmap⟩ := ih h.2
    refine ⟨Int.ofNat n :: vt, ?_, ?_⟩
    · simp only [intList]
      rw [hp, hint]
    · rw [List.map_cons, hi, hmap]

theorem joinDot_cons (c : Char) (g : List Char) (gs : List (List Char)) :
    joinDot ((c :: g) :: gs) = c :: joinDot (g :: gs) := by
  cases gs with
  | nil => rfl
  | cons g2 gs2 => rfl

theorem joinDot_splitDot : ∀ s : List Char, joinDot (splitDot s) = s := by
  intro s
  induction s with
  | nil => rfl
  | cons c rest ih =>
    simp only [splitDot]
    by_cases hc : c = '.'
    · rw [if_pos hc]
      cases hsp : splitDot rest with
      | nil => exact absurd hsp (splitDot_ne_nil rest)
      | cons g gs =>
        subst hc
        have h3 : joinDot ([] :: g :: gs) = '.' :: joinDot (g :: gs) := rfl
        rw [h3, ← hsp, ih]
    · rw [if_neg hc]
      cases hsp : splitDot rest with
      | nil => exact absurd hsp (splitDot_ne_nil rest)
      | cons g gs =>
        dsimp only
        rw [joinDot_cons, ← hsp, ih]

/-! ## Claim C5: version string round-trip -/

/-- C5 (counterexample to the claim as stated): `"03.6.0"` is accepted by the
constructor (`int("03")` parses) but the derived version string is
`"3.6.0"`, not the original. -/
theorem c5_counterexample :
    versionOfString (cs "03.6.0") = some (cs "3.6.0") ∧ cs "3.6.0" ≠ cs "03.6.0" :=
  ⟨by decide, by decide⟩

/-- C5 (amended): the round-trip holds exactly for version strings whose
dot-separated components are canonical decimal numerals (nonempty, all
digits, no leading zero except `"0"` itself): parsing and re-joining yields
the original string. -/
theorem c5_version_roundtrip (s : List Char)
    (h : (splitDot s).all canonicalComp = true) : versionOfString s = some s := by
  obtain ⟨vt, hint, hmap⟩ := intList_canonical (splitDot s) h
  rw [versionOfString, hint]
  simp only [Option.map_some']
  rw [hmap, joinDot_splitDot]

/-- C5 witness: the amended theorem applied to `"3.6.0"`. -/
theorem c5_witness : versionOfString (cs "3.6.0") = some (cs "3.6.0") :=
  c5_version_roundtrip (cs "3.6.0") (by decide)

/-! ## Lemmas: integers round-trip through their decimal form -/

theorem pyIntBody_digits {c : List Char} (hne : c ≠ [])
    (hdig : ∀ x ∈ c, x.isDigit = true) : pyIntBody c = some (digitsVal c) := by
  cases c with
  | nil => exact absurd rfl hne
  | cons d rest =>
    rw [pyIntBody.eq_def]
    dsimp only
    rw [if_pos (hdig d (List.mem_cons_self d rest)), parseUD_digits _ _ hdig]
    rfl

theorem pyInt_digits {c : List Char} (hne : c ≠ [])
    (hdig : ∀ x ∈ c, x.isDigit = true) : pyInt c = some (Int.ofNat (digitsVal c)) := by
  rw [pyInt, pyStrip_digits hne hdig]
  cases c with
  | nil => exact absurd rfl hne
  | cons d rest =>
    dsimp only
    have hdd : d.isDigit = true := hdig d (List.mem_cons_self d rest)
    rw [if_neg (by intro hp; rw [hp] at hdd; exact absurd hdd (by decide))]
    rw [if_neg (by intro hp; rw [hp] at hdd; exact absurd hdd (by decide))]
    rw [pyIntBody_digits (by simp) hdig]
    rfl

theorem charOf_digitVal (d : Nat) (h : d < 10) : digitVal (Char.ofNat (48 + d)) = d := by
  interval_cases d <;> decide

theorem charOf_isDigit (d : Nat) (h : d < 10) : (Char.ofNat (48 + d)).isDigit = true := by
  interval_cases d <;> decide

theorem natToChars_ne_nil (n : Nat) : natToChars n ≠ [] := by
  rw [natToChars]
  by_cases h0 : n = 0
  · rw [if_pos h0]; simp
  · rw [if_neg h0]
    intro hh
    have := congrArg List.length hh
    simp only [List.length_reverse, List.length_map, List.length_nil] at this
    rw [natDigits_eq] at this
    exact Nat.digits_ne_nil_iff_ne_zero.mpr h0 (List.eq_nil_of_length_eq_zero this)

theorem natToChars_digits (n : Nat) : ∀ x ∈ natToChars n, x.isDigit = true := by
  intro x hx
  rw [natToChars] at hx
  by_cases h0 : n = 0
  · rw [if_pos h0] at hx
    rcases List.mem_cons.mp hx with rfl | hm
    · decide
    · cases hm
  · rw [if_neg h0] at hx
    rw [List.mem_reverse] at hx
    obtain ⟨d, hd, rfl⟩ := List.mem_map.mp hx
    rw [natDigits_eq] at hd
    exact charOf_isDigit d (Nat.digits_lt_base (by norm_num) hd)

theorem digitsVal_natToChars (n : Nat) : digitsVal (natToChars n) = n := by
  by_cases h0 : n = 0
  · subst h0; rfl
  · rw [digitsVal_eq_ofDigits, natToChars, if_neg h0, natDigits_eq]
    rw [List.map_reverse, List.reverse_reverse, List.map_map]
    have hmap : (Nat.digits 10 n).map (digitVal ∘ fun d => Char.ofNat (48 + d)) =
        Nat.digits 10 n := by
      apply map_eq_self
      intro d hd
      exact charOf_digitVal d (Nat.digits_lt_base (by norm_num) hd)
    rw [hmap]
    exact Nat.ofDigits_digits 10 n

theorem pyInt_natToChars (n : Nat) : pyInt (natToChars n) = some (Int.ofNat n) := by
  rw [pyInt_digits (natToChars_ne_nil n) (natToChars_digits n), digitsVal_natToChars]

theorem pyStrip_dash_digits {c : List Char} (hne : c ≠ [])
    (hdig : ∀ x ∈ c, x.isDigit = true) : pyStrip ('-' :: c) = '-' :: c := by
  have h1 : ('-' :: c).dropWhile isPyWS = '-' :: c := by
    rw [List.dropWhile_cons, if_neg (by decide)]
  rw [pyStrip, h1]
  cases hrev : c.reverse with
  | nil =>
    exact absurd (by simpa using congrArg List.reverse hrev) hne
  | cons a t =>
    have ha : a.isDigit = true := by
      apply hdig
      rw [← List.mem_reverse, hrev]
      exact List.mem_cons_self a t
    rw [List.reverse_cons, hrev]
    have h2 : ((a :: t) ++ ['-']).dropWhile isPyWS = (a :: t) ++ ['-'] := by
      rw [List.cons_append, List.dropWhile_cons, if_neg]
      intro hws
      rcases (by simpa [isPyWS] using hws :
        ((((a = ' ' ∨ a = '\t') ∨ a = '\n') ∨ a = '\x0d') ∨ a = '\x0b') ∨ a = '\x0c') with
        ((((rfl | rfl) | rfl) | rfl) | rfl) | rfl <;> exact absurd ha (by decide)
    rw [h2, ← hrev, ← List.reverse_cons, List.reverse_reverse]

theorem pyInt_intToChars (i : Int) : pyInt (intToChars i) = some i := by
  cases i with
  | ofNat n =>
    rw [intToChars.eq_def, if_neg (show ¬ Int.ofNat n < 0 from Int.not_lt.mpr (Int.ofNat_nonneg n))]
    show pyInt (natToChars n) = some (Int.ofNat n)
    exact pyInt_natToChars n
  | negSucc m =>
    rw [intToChars.eq_def, if_pos (by exact Int.negSucc_lt_zero m)]
    show pyInt ('-' :: natToChars (m + 1)) = some (Int.negSucc m)
    rw [pyInt, pyStrip_dash_digits (natToChars_ne_nil (m + 1)) (natToChars_digits (m + 1))]
    dsimp only
    rw [if_neg (by decide), if_pos rfl]
    rw [pyIntBody_digits (natToChars_ne_nil (m + 1)) (natToChars_digits (m + 1))]
    rw [digitsVal_natToChars]
    rfl

/-! ## Claim C6: Windows pre-3.6.0 argument assembly -/

/-- C6: on Windows below version 3.6.0, the configure arguments begin with
the `-G "NMake Makefiles"` generator pair followed by the install-prefix,
tests-disabled and release flags; the build arguments are the base options
followed by a `--` separator and the `WIN64=`/`BUILD_BATCH=` variable
assignments, and contain no `-j` job-count flag. -/
theorem c6_windows_legacy_args (cfg : BuildCfg) (vt : List Int) (inst : List Char)
    (njobs : Int) (hos : cfg.osName = cs "nt") (hvt : tupleLt vt [3, 6, 0] = true) :
    configOpts cfg vt inst =
      [cs "-G", cs "NMake Makefiles", cs "-DCMAKE_INSTALL_PREFIX=" ++ inst,
       cs "-DGEOS_ENABLE_TESTS=OFF", cs "-DCMAKE_BUILD_TYPE=Release"]
    ∧ (buildOptsEnv cfg vt njobs).1 =
        [cs "--config", cs "Release", cs "--target", cs "install", cs "--",
         cs "WIN64=" ++ yesNo (8 * cfg.pointerBytes = 64),
         cs "BUILD_BATCH=" ++ yesNo (1 < njobs)]
    ∧ cs "-j" ∉ (buildOptsEnv cfg vt njobs).1 := by
  have hbo : (buildOptsEnv cfg vt njobs).1 =
      [cs "--config", cs "Release", cs "--target", cs "install", cs "--",
       cs "WIN64=" ++ yesNo (8 * cfg.pointerBytes = 64),
       cs "BUILD_BATCH=" ++ yesNo (1 < njobs)] := by
    rw [buildOptsEnv]
    rw [if_neg (fun h => h hos), if_pos hvt]
    rfl
  refine ⟨?_, hbo, ?_⟩
  · rw [configOpts]
    rw [if_pos ⟨hos, hvt⟩]
  · rw [hbo]
    intro hmem
    simp only [List.mem_cons, List.not_mem_nil, or_false] at hmem
    rcases hmem with h | h | h | h | h | h | h
    · exact absurd h (by decide)
    · exact absurd h (by decide)
    · exact absurd h (by decide)
    · exact absurd h (by decide)
    · exact absurd h (by decide)
    · have h1 : (cs "-j").head? = some '-' := rfl
      have h2 : (cs "WIN64=" ++ yesNo (8 * cfg.pointerBytes = 64)).head? = some 'W' := rfl
      rw [h] at h1
      rw [h2] at h1
      exact absurd h1 (by decide)
    · have h1 : (cs "-j").head? = some '-' := rfl
      have h2 : (cs "BUILD_BATCH=" ++ yesNo (1 < njobs)).head? = some 'B' := rfl
      rw [h] at h1
      rw [h2] at h1
      exact absurd h1 (by decide)

/-- C6 witness: the theorem applied to the Windows host at version 3.5.0. -/
theorem c6_witness :
    configOpts cfgWin [3, 5, 0] (cs "/inst") =
      [cs "-G", cs "NMake Makefiles", cs "-DCMAKE_INSTALL_PREFIX=" ++ cs "/inst",
       cs "-DGEOS_ENABLE_TESTS=OFF", cs "-DCMAKE_BUILD_TYPE=Release"]
    ∧ (buildOptsEnv cfgWin [3, 5, 0] 1).1 =
        [cs "--config", cs "Release", cs "--target", cs "install", cs "--",
         cs "WIN64=" ++ yesNo (8 * cfgWin.pointerBytes = 64),
         cs "BUILD_BATCH=" ++ yesNo (1 < (1 : Int))]
    ∧ cs "-j" ∉ (buildOptsEnv cfgWin [3, 5, 0] 1).1 :=
  c6_windows_legacy_args cfgWin [3, 5, 0] (cs "/inst") 1 (by decide) (by decide)

/-! ## Claim C7: non-Windows parallelism via the environment -/

/-- C7: on a non-Windows platform, parallelism reaches the build only
through the environment: the build environment maps `MAKEFLAGS` to
`-j <njobs>` whose job count parses back to exactly `njobs`, while neither
the configure arguments nor the build arguments carry a `-j` flag. -/
theorem c7_posix_parallelism (cfg : BuildCfg) (vt : List Int) (inst : List Char)
    (njobs : Int) (hos : cfg.osName ≠ cs "nt") :
    lookupFile (buildOptsEnv cfg vt njobs).2 (cs "MAKEFLAGS") =
        some (cs "-j " ++ intToChars njobs)
    ∧ pyInt ((cs "-j " ++ intToChars njobs).drop 3) = some njobs
    ∧ (buildOptsEnv cfg vt njobs).1 = [cs "--config", cs "Release", cs "--target", cs "install"]
    ∧ cs "-j" ∉ configOpts cfg vt inst
    ∧ cs "-j" ∉ (buildOptsEnv cfg vt njobs).1 := by
  have hbe : buildOptsEnv cfg vt njobs =
      ([cs "--config", cs "Release", cs "--target", cs "install"],
       (cs "MAKEFLAGS", cs "-j " ++ intToChars njobs) :: cfg.env0) := by
    rw [buildOptsEnv, if_pos hos]
  have hdrop : (cs "-j " ++ intToChars njobs).drop 3 = intToChars njobs := rfl
  have hnotj : ∀ l : List Char, l = cs "-DCMAKE_INSTALL_PREFIX=" ++ inst →
      cs "-j" ≠ l := by
    intro l hl he
    rw [hl] at he
    have h1 : (cs "-j").tail.head? = some 'j' := rfl
    have h2 : ((cs "-DCMAKE_INSTALL_PREFIX=" ++ inst)).tail.head? = some 'D' := rfl
    rw [he, h2] at h1
    exact absurd h1 (by decide)
  refine ⟨?_, ?_, ?_, ?_, ?_⟩
  · rw [hbe]
    simp [lookupFile]
  · rw [hdrop]
    exact pyInt_intToChars njobs
  · rw [hbe]
  · rw [configOpts]
    by_cases hc : cfg.osName = cs "nt" ∧ tupleLt vt [3, 6, 0] = true
    · exact absurd hc.1 hos
    · rw [if_neg hc]
      intro hmem
      simp only [List.mem_cons, List.not_mem_nil, or_false] at hmem
      rcases hmem with h | h | h
      · exact hnotj _ rfl h
      · exact absurd h (by decide)
      · exact absurd h (by decide)
  · rw [hbe]
    intro hmem
    simp only [List.mem_cons, List.not_mem_nil, or_false] at hmem
    rcases hmem with h | h | h | h <;> exact absurd h (by decide)

/-- C7 witness: the theorem applied to the Linux host at version 3.9.0 with
`parallelism = 4`. -/
theorem c7_witness :
    lookupFile (buildOptsEnv cfgLinux [3, 9, 0] 4).2 (cs "MAKEFLAGS") =
        some (cs "-j " ++ intToChars 4)
    ∧ pyInt ((cs "-j " ++ intToChars 4).drop 3) = some 4
    ∧ (buildOptsEnv cfgLinux [3, 9, 0] 4).1 =
        [cs "--config", cs "Release", cs "--target", cs "install"]
    ∧ cs "-j" ∉ configOpts cfgLinux [3, 9, 0] (cs "/inst")
    ∧ cs "-j" ∉ (buildOptsEnv cfgLinux [3, 9, 0] 4).1 :=
  c7_posix_parallelism cfgLinux [3, 9, 0] (cs "/inst") 4 (by decide)

/-! ## Lemmas: the working-directory discipline of `build` -/

theorem applyMkdir_dirs_mem {q : List Char} {fs : FS} (o : MkdirOutcome) (d : List Char)
    (h : q ∈ fs.dirs) : q ∈ (applyMkdir o d fs).dirs := by
  cases o with
  | ok => exact List.mem_cons_of_mem d h
  | failsOS _ => exact h

theorem runFinally_cwd (cwd0 : List Char) (r : BResult) (h : cwd0 ∈ (resultFS r).dirs) :
    resultCwd (runFinally cwd0 r) = cwd0 := by
  cases r with
  | ok st =>
    have h' : cwd0 ∈ st.fs.dirs := h
    rw [runFinally, chdirE, if_pos h']
    rfl
  | error e =>
    obtain ⟨e, st⟩ := e
    have h' : cwd0 ∈ st.fs.dirs := h
    rw [runFinally, chdirE, if_pos h']
    rfl

/-! ## Claim C8: the working directory is always restored -/

/-- C8: whatever the outcome of every oracle — extraction failure, missing
build directory, either external invocation raising or returning any code —
the working directory recorded in the result of `build` equals the working
directory at entry, provided the entry directory still exists after the
extraction stage (it is only ever at risk from the re-extraction's
`rmtree`). -/
theorem c8_build_restores_cwd (g : GeosLibrary) (arc : List (List Char × List Char))
    (cfg : BuildCfg) (orc : BuildOracle) (instArg : Option (List Char)) (njobs : Int)
    (st : PState) (hcwd : cwdSafe g arc orc.dlo st = true) :
    resultCwd (build g arc cfg orc instArg njobs st) = st.cwd := by
  rw [build]
  cases hres : extract g arc orc.dlo true st.fs with
  | error e =>
    obtain ⟨e, fs'⟩ := e
    rfl
  | ok fs1 =>
    rw [cwdSafe, hres, List.any_eq_true] at hcwd
    obtain ⟨x, hx, hxe⟩ := hcwd
    have hmem : st.cwd ∈ fs1.dirs := of_decide_eq_true hxe ▸ hx
    dsimp only
    set st2 : PState :=
      { fs := applyMkdir orc.mkBuild (builddir g) fs1, cwd := st.cwd } with hst2
    have hmem2 : st.cwd ∈ st2.fs.dirs := applyMkdir_dirs_mem _ _ hmem
    rw [chdirE]
    by_cases hch : builddir g ∈ st2.fs.dirs
    · rw [if_pos hch]
      cases orc.call1 with
      | raises e => exact runFinally_cwd _ _ hmem2
      | returns c =>
        dsimp only
        cases orc.call2 with
        | raises e =>
          exact runFinally_cwd _ _ (applyMkdir_dirs_mem _ _ hmem2)
        | returns c2 =>
          exact runFinally_cwd _ _ (applyMkdir_dirs_mem _ _ hmem2)
    · rw [if_neg hch]
      exact runFinally_cwd _ _ hmem2

/-- C8 witness: the theorem applied to a concrete run in which the second
external call exits nonzero. -/
theorem c8_witness :
    resultCwd (build gEx35 arcEx35 cfgLinux orcEx none 4 stEx) = stEx.cwd :=
  c8_build_restores_cwd gEx35 arcEx35 cfgLinux orcEx none 4 stEx (by decide)

/-! ## Claim C9: exit statuses of the external calls are not inspected -/

/-- C9: whenever both `subprocess.call` invocations return — with any exit
codes whatsoever, zero or not — and the surrounding filesystem steps go
through, `build` returns normally: no error is derived from a non-zero exit
status. -/
theorem c9_exit_status_ignored (g : GeosLibrary) (arc : List (List Char × List Char))
    (cfg : BuildCfg) (orc : BuildOracle) (instArg : Option (List Char)) (njobs : Int)
    (st : PState) (c1 c2 : Int)
    (h1 : orc.call1 = .returns c1) (h2 : orc.call2 = .returns c2)
    (hex : xIsOk (extract g arc orc.dlo true st.fs) = true)
    (hmk : orc.mkBuild = .ok)
    (hcwd : cwdSafe g arc orc.dlo st = true) :
    bIsOk (build g arc cfg orc instArg njobs st) = true := by
  rw [build]
  cases hres : extract g arc orc.dlo true st.fs with
  | error e =>
    rw [xIsOk.eq_def, hres] at hex
    cases hex
  | ok fs1 =>
    rw [cwdSafe, hres, List.any_eq_true] at hcwd
    obtain ⟨x, hx, hxe⟩ := hcwd
    have hmem : st.cwd ∈ fs1.dirs := of_decide_eq_true hxe ▸ hx
    dsimp only
    rw [hmk]
    have hch : builddir g ∈ (applyMkdir MkdirOutcome.ok (builddir g) fs1).dirs :=
      List.mem_cons_self _ _
    rw [chdirE, if_pos hch]
    rw [h1]
    dsimp only
    rw [h2]
    dsimp only
    rw [runFinally]
    have hmem4 : st.cwd ∈ (applyMkdir orc.mkInstall (resolveInstalldir cfg instArg)
        (applyMkdir MkdirOutcome.ok (builddir g) fs1)).dirs :=
      applyMkdir_dirs_mem _ _ (List.mem_cons_of_mem _ hmem)
    rw [chdirE, if_pos hmem4]
    rfl

/-- C9 witness: the theorem applied to a run whose build-and-install call
exits with status 1; `build` still reports success. -/
theorem c9_witness :
    bIsOk (build gEx35 arcEx35 cfgLinux orcEx none 4 stEx) = true :=
  c9_exit_status_ignored gEx35 arcEx35 cfgLinux orcEx none 4 stEx 0 1
    rfl rfl (by decide) rfl (by decide)

/-! ## Claim C10: constructor swallows every `OSError` from root creation -/

/-- C10: when `os.makedirs(self.root)` fails with any member of the
`OSError` family — file-exists, permission, invalid path, or the bare
class — the constructor still returns the fully-initialised instance and the
filesystem is exactly as the failed creation left it, even when the root
directory then does not exist. -/
theorem c10_makedirs_swallowed (vs : List Char) (vt : List Int) (r tmp : List Char)
    (k : OSKind) (msg : List Char) (fs : FS)
    (hv : intList (splitDot vs) = some vt) :
    pyInit vs (some r) tmp (.fails (.osError k, msg)) fs =
      .ok ({ root := r, version_tuple := vt, temp := false }, fs) := by
  rw [pyInit, hv]
  dsimp only
  rw [if_pos (show catchesOSError (PyExcClass.osError k) = true from rfl)]

/-- C10 witness: a permission failure while creating `/r` is swallowed; the
constructor returns normally and the root directory still does not exist. -/
theorem c10_witness :
    pyInit (cs "3.5.0") (some (cs "/data/geos")) (cs "/tmp/t")
        (.fails (.osError .permission, cs "Permission denied"))
        { files := [], dirs := [] } =
      .ok ({ root := cs "/data/geos", version_tuple := [3, 5, 0], temp := false },
           { files := [], dirs := [] })
    ∧ pathExists { files := [], dirs := [] } (cs "/data/geos") = false :=
  ⟨c10_makedirs_swallowed (cs "3.5.0") [3, 5, 0] (cs "/data/geos") (cs "/tmp/t")
      .permission (cs "Permission denied") { files := [], dirs := [] } (by decide),
   by decide⟩
